import Mathlib

/-!
Verification development for the code-review MCP server (`src/index.ts`).

The diff pipeline (`parseNameStatus`, `parseNumstat`, `mergeDiffData`,
`inferChangeType`, `attachPatchSnippets`, `splitUnifiedDiff`,
`gatherDiffInsights`), the heuristic evaluator (`evaluateHeuristics` with its
classifiers) and the status reader (`gatherGitStatus`, `parseBranchHeader`)
are embedded as executable Lean functions; JavaScript string builtins
(`split`, `join`, `trim`, `parseInt`, …) are modelled by explicit functions
on `List Char` so that every definition evaluates by kernel reduction.
-/

set_option maxHeartbeats 1000000

namespace CodeReview

/-! ## JavaScript string builtins, modelled on `List Char` -/

/-- The JavaScript whitespace class `\s`, restricted to the ASCII part
(`\v`, `\f` included); sufficient for the inputs the server handles. -/
def jsWs (c : Char) : Bool :=
  c = ' ' || c = '\t' || c = '\n' || c = '\r' || c = '\x0b' || c = '\x0c'

/-- JS `String.prototype.trim`. -/
def strTrim (s : String) : String :=
  String.mk (((s.data.dropWhile jsWs).reverse.dropWhile jsWs).reverse)

/-- JS `String.prototype.trimEnd`. -/
def strTrimEnd (s : String) : String :=
  String.mk ((s.data.reverse.dropWhile jsWs).reverse)

/-- JS `String.prototype.trimStart`. -/
def strTrimStart (s : String) : String :=
  String.mk (s.data.dropWhile jsWs)

/-- JS `s.slice(0, n)`. -/
def strTake (s : String) (n : Nat) : String := String.mk (s.data.take n)

/-- JS `s.slice(n)`. -/
def strDrop (s : String) (n : Nat) : String := String.mk (s.data.drop n)

/-- JS `s.startsWith(pre)`. -/
def strStartsWith (s pre : String) : Bool := decide (pre.data <+: s.data)

/-- JS `s.endsWith(suf)`. -/
def strEndsWith (s suf : String) : Bool := decide (suf.data <:+ s.data)

/-- JS `s.includes(pat)`. -/
def strContains (s pat : String) : Bool := decide (pat.data <:+: s.data)

/-- Prepend a character onto the first piece of a split result. -/
def consHead (c : Char) : List (List Char) → List (List Char)
  | [] => [[c]]
  | h :: r => (c :: h) :: r

/-- Split a character list at every occurrence of a separator character,
keeping empty pieces: the model of JS `s.split(sep)` for one-character
separators. -/
def splitChL (sep : Char) : List Char → List (List Char)
  | [] => [[]]
  | c :: t =>
    if c = sep then [] :: splitChL sep t
    else consHead c (splitChL sep t)

/-- JS `s.split(sep)` for a one-character separator. -/
def jsSplitCh (sep : Char) (s : String) : List String :=
  (splitChL sep s.data).map String.mk

/-- JS `s.split('\n')`. -/
def jsSplitNl (s : String) : List String := jsSplitCh '\n' s

/-- First occurrence of `pat` in a character list: returns the part before
the occurrence and the part after it. -/
def splitFirst (pat : List Char) : List Char → Option (List Char × List Char)
  | [] => none
  | c :: t =>
    if pat <+: (c :: t) then some ([], (c :: t).drop pat.length)
    else
      match splitFirst pat t with
      | some (b, a) => some (c :: b, a)
      | none => none

/-- Fuel-driven splitter on a multi-character separator `p0 :: pr`; with fuel
at least the length of the input it computes JS `s.split(sep)`.  Every
recursive call strictly shrinks the remaining text, so `length + 1` fuel is
always enough. -/
def splitStrAux (p0 : Char) (pr : List Char) : Nat → List Char → List (List Char)
  | 0, s => [s]
  | fuel + 1, s =>
    match splitFirst (p0 :: pr) s with
    | none => [s]
    | some (b, a) => b :: splitStrAux p0 pr fuel a

/-- JS `s.split(pat)` for a non-empty string separator (the only uses in the
source are `' ['`, `'...'` and `', '`). -/
def jsSplitStr (pat : String) (s : String) : List String :=
  match pat.data with
  | [] => [s]
  | p0 :: pr => (splitStrAux p0 pr (s.data.length + 1) s.data).map String.mk

/-- Interleave a separator character between pieces: the model of JS
`arr.join(sep)`. -/
def joinChL (sep : Char) : List (List Char) → List Char
  | [] => []
  | [x] => x
  | x :: y :: r => x ++ sep :: joinChL sep (y :: r)

/-- JS `arr.join(sep)` for a one-character separator. -/
def jsJoinCh (sep : Char) (l : List String) : String :=
  String.mk (joinChL sep (l.map String.data))

/-- JS `arr.join('\n')`. -/
def jsJoinNl (l : List String) : String := jsJoinCh '\n' l

/-- JS `s.replace(']', '')`-style replacement of the first occurrence only
(JS `replace` with a string pattern touches a single occurrence). -/
def replaceFirst (s pat repl : String) : String :=
  match splitFirst pat.data s.data with
  | some (b, a) => String.mk (b ++ repl.data ++ a)
  | none => s

/-- JS `s.replace(/\\/g, '/')`. -/
def replaceBackslashes (s : String) : String :=
  String.mk (s.data.map fun c => if c = '\\' then '/' else c)

/-- Digit run to number, radix 10. -/
def digitsToNat (ds : List Char) : Nat := ds.foldl (fun a c => a * 10 + (c.toNat - 48)) 0

/-- JS `Number.parseInt(s, 10)`: leading whitespace skipped, optional sign,
then the longest leading digit run; `none` models the `NaN` result. -/
def jsParseInt10 (s : String) : Option Int :=
  match s.data.dropWhile jsWs with
  | '-' :: t =>
    let ds := t.takeWhile Char.isDigit
    if ds = [] then none else some (-(digitsToNat ds : Int))
  | '+' :: t =>
    let ds := t.takeWhile Char.isDigit
    if ds = [] then none else some ((digitsToNat ds : Int))
  | t =>
    let ds := t.takeWhile Char.isDigit
    if ds = [] then none else some ((digitsToNat ds : Int))

/-- JS `Number.parseInt(s, 10) || 0`: a `NaN` parse collapses to `0`. -/
def jsParseIntOr0 (s : String) : Int :=
  match jsParseInt10 s with
  | some n => n
  | none => 0

/-! ## Node `path` builtins -/

/-- One step of Node's `normalizeString`: the accumulator holds the resolved
segments in reverse order; `allowAbove` is `!isAbsolute`, controlling whether
`..` may climb above the root of a relative path. -/
def normStep (allowAbove : Bool) (acc : List String) (seg : String) : List String :=
  if seg = "" ∨ seg = "." then acc
  else if seg = ".." then
    match acc with
    | [] => if allowAbove then [".."] else []
    | top :: rest => if top = ".." then (if allowAbove then ".." :: top :: rest else top :: rest) else rest
  else seg :: acc

/-- Node `path.posix.normalize`. -/
def posixNormalize (p : String) : String :=
  if p = "" then "."
  else
    let isAbs := strStartsWith p "/"
    let trailing := strEndsWith p "/"
    let segs := ((splitChL '/' p.data).map String.mk).foldl (normStep !isAbs) []
    let core := String.mk (joinChL '/' (segs.reverse.map String.data))
    if core = "" then (if isAbs then "/" else if trailing then "./" else ".")
    else
      let core' := if trailing then core ++ "/" else core
      if isAbs then "/" ++ core' else core'

/-- Node `path.extname`: extension of the last path component, empty for
dotless names, dotfiles, `.` and `..`. -/
def extname (p : String) : String :=
  let s := (p.data.reverse.dropWhile (· = '/')).reverse
  let base := (splitChL '/' s).getLastD []
  if base = ['.'] ∨ base = ['.', '.'] then ""
  else
    match (base.foldl (fun (st : Nat × Option Nat) ch =>
      (st.1 + 1, if ch = '.' then some st.1 else st.2)) (0, none)).2 with
    | none => ""
    | some 0 => ""
    | some i => String.mk (base.drop i)

/-- JS `s.toLowerCase()` restricted to ASCII (all recognised extensions are
ASCII). -/
def asciiLower (s : String) : String :=
  String.mk (s.data.map fun c => if 'A' ≤ c ∧ c ≤ 'Z' then Char.ofNat (c.toNat + 32) else c)

/-- `normalizePathForComparison` from the source: backslashes to forward
slashes, then posix normalization. -/
def normalizePathForComparison (p : String) : String :=
  posixNormalize (replaceBackslashes p)

/-! ## Data model (`src/index.ts` types) -/

inductive DiffSource where
  | staged
  | working
  deriving DecidableEq, Repr

structure DiffFileChange where
  path : String
  changeType : String
  additions : Option Int
  deletions : Option Int
  isBinary : Bool
  previousPath : Option String
  patch : Option String
  deriving DecidableEq, Repr

structure DiffInsights where
  repositoryRoot : String
  source : DiffSource
  fileCount : Nat
  totalAdditions : Int
  totalDeletions : Int
  files : List DiffFileChange
  deriving DecidableEq, Repr

structure DiffInsightsArgs where
  workingDirectory : Option String
  source : DiffSource
  paths : Option (List String)
  includePatch : Bool
  maxPatchLines : Nat
  deriving DecidableEq, Repr

/-- Value type of the `changeTypeMap` built by `parseNameStatus`. -/
structure ChangeInfo where
  changeType : String
  previousPath : Option String
  deriving DecidableEq, Repr

/-- Entry type of the `parseNumstat` result. -/
structure NumstatEntry where
  additions : Option Int
  deletions : Option Int
  path : String
  previousPath : Option String
  deriving DecidableEq, Repr

/-! ## JS `Map` modelled as an association list in insertion order -/

/-- JS `Map.prototype.set`: overwrite in place when the key exists, append
otherwise. -/
def mapSet {α : Type} (m : List (String × α)) (k : String) (v : α) : List (String × α) :=
  if m.any (fun p => p.1 == k) then m.map (fun p => if p.1 = k then (k, v) else p)
  else m ++ [(k, v)]

/-- JS `Map.prototype.get` (`none` models `undefined`). -/
def mapGet {α : Type} (m : List (String × α)) (k : String) : Option α :=
  (m.find? (fun p => p.1 == k)).map (·.2)

/-- JS `Map.prototype.has`. -/
def mapHas {α : Type} (m : List (String × α)) (k : String) : Bool :=
  m.any (fun p => p.1 == k)

/-! ## Diff parsers (`parseNameStatus`, `parseNumstat`) -/

/-- The per-line body of the `parseNameStatus` loop: one `Map.set` per
usable line; `R`/`C` codes carry a previous path, the new path falls back to
the old one; the `!type` / `!newPath` / `!targetPath` truthiness guards skip
empty strings (and, for the missing-field cases, JS `undefined`). -/
def parseNameStatusLine (m : List (String × ChangeInfo)) (line : String) :
    List (String × ChangeInfo) :=
  if strTrim line = "" then m
  else
    let parts := jsSplitCh '\t' (strTrim line)
    let type := parts.getD 0 ""
    if type = "" then m
    else
      let pathParts := parts.drop 1
      if strStartsWith type "R" || strStartsWith type "C" then
        let previousPath := pathParts[0]?
        let newPath := match pathParts[1]? with
          | some p => some p
          | none => previousPath
        match newPath with
        | none => m
        | some np => if np = "" then m else mapSet m np ⟨type, previousPath⟩
      else
        match pathParts[0]? with
        | none => m
        | some tp => if tp = "" then m else mapSet m tp ⟨type, none⟩

/-- `parseNameStatus` from the source. -/
def parseNameStatus (raw : String) : List (String × ChangeInfo) :=
  (jsSplitNl raw).foldl parseNameStatusLine []

/-- One line of `parseNumstat`: skipped entirely (`none`) when blank or when
no path field is present; `-` count tokens become `null` (`none`), any other
token goes through `parseInt(..., 10) || 0`. -/
def parseNumstatLine (line : String) : Option NumstatEntry :=
  if strTrim line = "" then none
  else
    let parts := jsSplitCh '\t' (strTrim line)
    let additionsRaw := parts.getD 0 ""
    let deletionsRaw := parts[1]?
    let rest := parts.drop 2
    match rest.getLast? with
    | none => none
    | some path =>
      if path = "" then none
      else
        let previousPath := if rest.length ≥ 2 then some (jsJoinCh '\t' rest.dropLast) else none
        some
          { additions := if additionsRaw = "-" then none else some (jsParseIntOr0 additionsRaw)
            -- `parts[1]` can be absent in JS (`undefined`); then
            -- `parseInt(undefined, 10) || 0` yields `0`
            deletions := match deletionsRaw with
              | some d => if d = "-" then none else some (jsParseIntOr0 d)
              | none => some 0
            path := path
            previousPath := previousPath }

/-- `parseNumstat` from the source. -/
def parseNumstat (raw : String) : List NumstatEntry :=
  (jsSplitNl raw).filterMap parseNumstatLine

/-! ## Diff merge (`inferChangeType`, `mergeDiffData`) -/

/-- `inferChangeType` from the source. -/
def inferChangeType (additions deletions : Option Int) : String :=
  if additions = some 0 ∧ deletions = some 0 then "M"
  else if additions ≠ none ∧ deletions = none then "A"
  else "M"

/-- The record `mergeDiffData` builds for a numstat entry. -/
def numstatRecord (changeTypeMap : List (String × ChangeInfo)) (e : NumstatEntry) :
    DiffFileChange :=
  let changeInfo := mapGet changeTypeMap e.path
  { path := e.path
    changeType := match changeInfo with
      | some ci => ci.changeType
      | none => inferChangeType e.additions e.deletions
    additions := e.additions
    deletions := e.deletions
    isBinary := e.additions.isNone || e.deletions.isNone
    previousPath := match changeInfo with
      | some ci => match ci.previousPath with
        | some pp => some pp
        | none => e.previousPath
      | none => e.previousPath
    patch := none }

/-- The record `mergeDiffData` builds for a name-status-only path. -/
def nameStatusOnlyRecord (path : String) (info : ChangeInfo) : DiffFileChange :=
  { path := path
    changeType := info.changeType
    additions := some 0
    deletions := some 0
    isBinary := true
    previousPath := info.previousPath
    patch := none }

/-- Stable insertion into a list sorted by path.  The source sorts with
`localeCompare`; since merged paths are pairwise distinct the sorted result
is independent of the tie-breaking and of the exact collation used for
distinct strings up to that order, so codepoint order stands in for it. -/
def insertByPath (x : DiffFileChange) : List DiffFileChange → List DiffFileChange
  | [] => [x]
  | y :: ys => if x.path ≤ y.path then x :: y :: ys else y :: insertByPath x ys

/-- Sort of the merged records by path (model of
`[...fileMap.values()].sort((a, b) => a.path.localeCompare(b.path))`). -/
def sortByPath : List DiffFileChange → List DiffFileChange
  | [] => []
  | x :: xs => insertByPath x (sortByPath xs)

/-- The first loop of `mergeDiffData`: every numstat entry is `Map.set` into
the file map. -/
def mergeFold1 (changeTypeMap : List (String × ChangeInfo))
    (fm : List (String × DiffFileChange)) (numstatEntries : List NumstatEntry) :
    List (String × DiffFileChange) :=
  numstatEntries.foldl (fun fm e => mapSet fm e.path (numstatRecord changeTypeMap e)) fm

/-- The second loop of `mergeDiffData`: name-status paths not already present
are added with zero counts. -/
def mergeFold2 (fm : List (String × DiffFileChange))
    (changeTypeMap : List (String × ChangeInfo)) : List (String × DiffFileChange) :=
  changeTypeMap.foldl
    (fun fm kv =>
      if mapHas fm kv.1 then fm
      else mapSet fm kv.1 (nameStatusOnlyRecord kv.1 kv.2))
    fm

/-- `mergeDiffData` from the source: numstat entries into a path-keyed map,
then name-status-only paths with zero counts, then sort, then the optional
path-subset filter. -/
def mergeDiffData (changeTypeMap : List (String × ChangeInfo))
    (numstatEntries : List NumstatEntry) (args : DiffInsightsArgs) :
    List DiffFileChange :=
  let fileMap := mergeFold1 changeTypeMap [] numstatEntries
  let fileMap := mergeFold2 fileMap changeTypeMap
  let files := sortByPath (fileMap.map (·.2))
  match args.paths with
  | some ps =>
    if ps.length ≠ 0 then
      let filter := ps.map normalizePathForComparison
      files.filter (fun file => filter.contains (normalizePathForComparison file.path))
    else files
  | none => files

/-! ## Unified-diff splitting (`splitUnifiedDiff`) and patch attachment

The source splits the raw patch with the regex
`/^diff --git a\/(.+?) b\/(.+?)\n([\s\S]*?)(?=^diff --git |\s*$)/gm`.
The functions below model the regex engine's behaviour exactly: the lazy
body group together with the multiline `\s*$` lookahead stops the body at
the first position from which only whitespace remains on the current line —
in particular every `\n` position qualifies, so a captured body never
extends past the first body line. -/

structure PatchSegment where
  keyPath : String
  label : String
  patch : String
  deriving DecidableEq, Repr

/-- The lookahead alternative `\s*$` (multiline): succeeds at a position iff
the whitespace run starting there reaches a line terminator or the end of
the input. -/
def wsToLineEnd (rest : List Char) : Bool :=
  let t := rest.takeWhile jsWs
  t.contains '\n' || t.length = rest.length

/-- Lazy body capture: consume characters until the `\s*$` lookahead
alternative succeeds; returns the captured body and the remaining text. -/
def takeBody : List Char → (List Char × List Char)
  | [] => ([], [])
  | c :: t =>
    if wsToLineEnd (c :: t) then ([], c :: t)
    else
      let br := takeBody t
      (c :: br.1, br.2)

/-- Attempt one regex match at a line-start position: header prefix, lazy
old path up to the first `' b/'` at offset ≥ 1 (failing if a newline
intervenes — `.` does not cross lines), lazy new path up to the first
newline, then the lazy body with its lookahead (including the
`^diff --git ` alternative, reachable only at the body start). Returns
`(oldPath, newPath, body, rest)`. -/
def headerMatch (s : List Char) : Option (List Char × List Char × List Char × List Char) :=
  let pre := "diff --git a/".data
  if pre <+: s then
    match s.drop pre.length with
    | [] => none
    | c1 :: t1 =>
      match splitFirst " b/".data t1 with
      | none => none
      | some (b, s2) =>
        let old := c1 :: b
        if old.contains '\n' then none
        else
          match s2 with
          | [] => none
          | c2 :: t2 =>
            if c2 = '\n' then none
            else
              match splitFirst ['\n'] (c2 :: t2) with
              | none => none
              | some (new, s3) =>
                let br :=
                  if "diff --git ".data <+: s3 then (([] : List Char), s3)
                  else takeBody s3
                some (old, new, br.1, br.2)
  else none

/-- Successive regex matches: scan for line starts carrying a matching
header; fuel `length + 1` suffices because every step consumes at least one
character. -/
def scanSegments : Nat → List Char → Bool → List PatchSegment
  | 0, _, _ => []
  | _ + 1, [], _ => []
  | fuel + 1, c :: t, lineStart =>
    if lineStart then
      match headerMatch (c :: t) with
      | some (old, new, body, rem) =>
        { keyPath := String.mk new
          label := if old = new then String.mk new else String.mk (old ++ " -> ".data ++ new)
          patch := String.mk ("diff --git a/".data ++ old ++ " b/".data ++ new ++
            '\n' :: body.dropWhile jsWs) } ::
          scanSegments fuel rem body.isEmpty
      | none => scanSegments fuel t (c = '\n')
    else scanSegments fuel t (c = '\n')

/-- `splitUnifiedDiff` from the source (the reconstructed `patch` field uses
`body.trimStart()`, modelled by `dropWhile jsWs` since a captured body never
contains a newline). -/
def splitUnifiedDiff (rawPatch : String) : List PatchSegment :=
  scanSegments (rawPatch.data.length + 1) rawPatch.data true

/-- The per-segment truncation of `attachPatchSnippets`. -/
def truncateSeg (patch : String) (maxLines : Nat) : String :=
  let lines := jsSplitNl patch
  if lines.length > maxLines then jsJoinNl (lines.take maxLines) ++ "\n… (truncated)"
  else patch

/-- The segment-to-record match of `attachPatchSnippets`: normalized current
path, or normalized previous path when present. -/
def segMatchesFile (key : String) (f : DiffFileChange) : Bool :=
  normalizePathForComparison f.path == key ||
    (match f.previousPath with
     | some pp => normalizePathForComparison pp == key
     | none => false)

/-- `files.find(...)` followed by the patch assignment: rewrite the first
matching record, leave everything else alone. -/
def updateFirstPatch (pred : DiffFileChange → Bool) (newPatch : String) :
    List DiffFileChange → List DiffFileChange
  | [] => []
  | f :: fs =>
    if pred f then { f with patch := some newPatch } :: fs
    else f :: updateFirstPatch pred newPatch fs

/-- `attachPatchSnippets` from the source. -/
def attachPatchSnippets (files : List DiffFileChange) (rawPatch : String) (maxLines : Nat) :
    List DiffFileChange :=
  if strTrim rawPatch = "" then files
  else
    (splitUnifiedDiff rawPatch).foldl
      (fun fs seg =>
        updateFirstPatch (segMatchesFile (normalizePathForComparison seg.keyPath))
          (truncateSeg seg.patch maxLines) fs)
      files

/-- A record with its patch field cleared (used to state that patch
attachment changes nothing but the patch field). -/
def erasePatch (f : DiffFileChange) : DiffFileChange := { f with patch := none }

/-! ## `gatherDiffInsights` -/

/-- The `files.reduce` totals of `gatherDiffInsights`: a count is added
exactly when the field holds a number. -/
def computeTotals (files : List DiffFileChange) : Int × Int :=
  files.foldl
    (fun acc file =>
      let acc1 := match file.additions with
        | some n => (acc.1 + n, acc.2)
        | none => acc
      match file.deletions with
      | some n => (acc1.1, acc1.2 + n)
      | none => acc1)
    (0, 0)

/-- `gatherDiffInsights` from the source, with the three subprocess outputs
(`--name-status`, `--numstat`, `--patch`) supplied as inputs — the
version-control tool is an external collaborator. -/
def gatherDiffInsights (repoRoot : String) (args : DiffInsightsArgs)
    (nameStatusRaw numstatRaw patchRaw : String) : DiffInsights :=
  let changeTypeMap := parseNameStatus nameStatusRaw
  let numstatEntries := parseNumstat numstatRaw
  let files := mergeDiffData changeTypeMap numstatEntries args
  let totals := computeTotals files
  let files := if args.includePatch then attachPatchSnippets files patchRaw args.maxPatchLines
    else files
  { repositoryRoot := repoRoot
    source := args.source
    fileCount := files.length
    totalAdditions := totals.1
    totalDeletions := totals.2
    files := files }

/-! ## Heuristic evaluator -/

inductive FindingSeverity where
  | info
  | warn
  | critical
  deriving DecidableEq, Repr

inductive FindingCategory where
  | testing
  | risk
  | dependencies
  | maintenance
  | general
  deriving DecidableEq, Repr

structure ReviewFinding where
  id : String
  category : FindingCategory
  severity : FindingSeverity
  summary : String
  details : String
  affectedFiles : List String
  recommendation : Option String
  deriving DecidableEq, Repr

structure HeuristicArgs where
  workingDirectory : Option String
  source : DiffSource
  paths : Option (List String)
  largeFileThreshold : Int
  requireTestsForCode : Bool
  includePatchContextLines : Nat
  warnOnConfigChanges : Bool
  deriving DecidableEq, Repr

structure HeuristicMetrics where
  fileCount : Nat
  totalAdditions : Int
  totalDeletions : Int
  largeFiles : Nat
  binaryFiles : Nat
  codeFiles : Nat
  testFiles : Nat
  deriving DecidableEq, Repr

structure HeuristicReport where
  repositoryRoot : String
  source : DiffSource
  metrics : HeuristicMetrics
  findings : List ReviewFinding
  suggestions : List String
  diff : DiffInsights
  deriving DecidableEq, Repr

/-- `totalChurn` from the source. -/
def totalChurn (file : DiffFileChange) : Int :=
  file.additions.getD 0 + file.deletions.getD 0

/-- Index of the last occurrence of a character. -/
def lastIdxOf (c : Char) : List Char → Option Nat
  | [] => none
  | x :: t =>
    match lastIdxOf c t with
    | some i => some (i + 1)
    | none => if x = c then some 0 else none

/-- Model of the test-suffix regexes `/\.test\.[^.]+$/` and
`/\.spec\.[^.]+$/`: the `[^.]+$` part forces the matched dot to be the last
dot of the string, with at least one character after it, and the text up to
that dot to end in `.test` (resp. `.spec`). -/
def matchesDotSuffix (word : String) (s : String) : Bool :=
  match lastIdxOf '.' s.data with
  | none => false
  | some i =>
    decide (i + 1 < s.data.length) && strEndsWith (String.mk (s.data.take i)) ("." ++ word)

/-- `isTestFileChange` from the source. -/
def isTestFileChange (file : DiffFileChange) : Bool :=
  let normalized := normalizePathForComparison file.path
  strContains normalized "/test/" || strContains normalized "/tests/" ||
    strContains normalized "/__tests__/" ||
    matchesDotSuffix "test" normalized || matchesDotSuffix "spec" normalized ||
    strEndsWith normalized "-test.ts" || strEndsWith normalized "-spec.ts"

/-- The recognised-language extension set of `isCodeFileChange`. -/
def codeExtensions : List String :=
  [".ts", ".tsx", ".js", ".jsx", ".mjs", ".cjs", ".py", ".java", ".kt", ".go",
   ".rs", ".cpp", ".c", ".cs", ".rb", ".php", ".swift"]

/-- `isCodeFileChange` from the source. -/
def isCodeFileChange (file : DiffFileChange) : Bool :=
  let ext := asciiLower (extname file.path)
  if ext = "" then false
  else codeExtensions.contains ext && !isTestFileChange file

/-- Node `path.basename`. -/
def basename (p : String) : String :=
  let s := (p.data.reverse.dropWhile (· = '/')).reverse
  String.mk ((splitChL '/' s).getLastD [])

/-- The recognised manifest/lockfile names of `isConfigChange`. -/
def configNames : List String :=
  ["package.json", "package-lock.json", "pnpm-lock.yaml", "yarn.lock",
   "tsconfig.json", "pyproject.toml", "requirements.txt", "go.mod", "go.sum",
   "pom.xml", "build.gradle", "Dockerfile"]

/-- `isConfigChange` from the source. -/
def isConfigChange (file : DiffFileChange) : Bool :=
  let bn := basename file.path
  if configNames.contains bn then true
  else if strEndsWith bn ".env" || strEndsWith bn ".env.example" then true
  else
    let normalized := normalizePathForComparison file.path
    strStartsWith normalized ".github/workflows/" ||
      strContains normalized "/config/" || strContains normalized "/configs/" ||
      strContains normalized "/infrastructure/"

/-- The `large-files` finding. -/
def largeFilesFinding (largeFiles : List DiffFileChange) (threshold : Int) : ReviewFinding :=
  { id := "large-files"
    category := .risk
    severity := .warn
    summary := toString largeFiles.length ++ " file(s) exceed the " ++ toString threshold ++
      " line churn threshold"
    details := jsJoinNl (largeFiles.map fun file =>
      file.path ++ ": +" ++ toString (file.additions.getD 0) ++ " / -" ++
        toString (file.deletions.getD 0) ++ " (" ++ toString (totalChurn file) ++ " lines total)")
    affectedFiles := largeFiles.map (·.path)
    recommendation := some "Consider breaking up the change or highlighting key areas for reviewers." }

/-- The `missing-tests` finding. -/
def missingTestsFinding (codeFiles : List DiffFileChange) : ReviewFinding :=
  { id := "missing-tests"
    category := .testing
    severity := .warn
    summary := "Code changes detected without corresponding test updates"
    details := "At least one source file changed, but no files matching common test naming patterns were modified."
    affectedFiles := codeFiles.map (·.path)
    recommendation := some "Add or update tests covering the changed behaviour, or document why tests are not required." }

/-- The `config-edits` finding. -/
def configEditsFinding (configFiles : List DiffFileChange) : ReviewFinding :=
  { id := "config-edits"
    category := .dependencies
    severity := .info
    summary := "Configuration or dependency files were modified"
    details := jsJoinNl (configFiles.map (·.path))
    affectedFiles := configFiles.map (·.path)
    recommendation := some "Ensure reviewers understand the impact of configuration changes and confirm lockfiles remain consistent." }

/-- The `binary-files` finding. -/
def binaryFilesFinding (binaryFiles : List DiffFileChange) : ReviewFinding :=
  { id := "binary-files"
    category := .maintenance
    severity := .info
    summary := toString binaryFiles.length ++ " binary file(s) changed"
    details := jsJoinNl (binaryFiles.map (·.path))
    affectedFiles := binaryFiles.map (·.path)
    recommendation := some "Verify binary assets are intentional and document update rationale." }

/-- `deriveSuggestions` from the source. -/
def deriveSuggestions (findings : List ReviewFinding) (diff : DiffInsights) : List String :=
  let suggestions := if findings.length = 0 then
      ["No heuristic findings detected. Proceed with focused manual review."]
    else []
  let suggestions := if diff.fileCount = 0 then
      suggestions ++ ["Diff is empty. Confirm you staged or saved the desired changes."]
    else suggestions
  let suggestions := if findings.any (fun f => f.id == "large-files") then
      suggestions ++ ["Highlight the riskiest regions in review description or break up the PR."]
    else suggestions
  if findings.any (fun f => f.id == "missing-tests") then
    suggestions ++ ["Add regression tests or document why tests are not applicable."]
  else suggestions

/-- `evaluateHeuristics` from the source; the findings list concatenates the
four conditional pushes in their source order. -/
def evaluateHeuristics (diff : DiffInsights) (args : HeuristicArgs) : HeuristicReport :=
  let codeFiles := diff.files.filter isCodeFileChange
  let testFiles := diff.files.filter isTestFileChange
  let binaryFiles := diff.files.filter (·.isBinary)
  let largeFiles := diff.files.filter
    (fun file => !file.isBinary && decide (totalChurn file ≥ args.largeFileThreshold))
  let configFiles := diff.files.filter isConfigChange
  let findings :=
    (if largeFiles.length ≠ 0 then [largeFilesFinding largeFiles args.largeFileThreshold]
     else []) ++
    (if args.requireTestsForCode ∧ codeFiles.length ≠ 0 ∧ testFiles.length = 0 then
       [missingTestsFinding codeFiles]
     else []) ++
    (if args.warnOnConfigChanges ∧ configFiles.length ≠ 0 then [configEditsFinding configFiles]
     else []) ++
    (if binaryFiles.length ≠ 0 then [binaryFilesFinding binaryFiles] else [])
  { repositoryRoot := diff.repositoryRoot
    source := diff.source
    metrics :=
      { fileCount := diff.fileCount
        totalAdditions := diff.totalAdditions
        totalDeletions := diff.totalDeletions
        largeFiles := largeFiles.length
        binaryFiles := binaryFiles.length
        codeFiles := codeFiles.length
        testFiles := testFiles.length }
    findings := findings
    suggestions := deriveSuggestions findings diff
    diff := diff }

/-! ## Status reader (`gatherGitStatus`, `parseBranchHeader`) -/

/-- A JS `number` as produced by `Number.parseInt`: an integer or `NaN`. -/
inductive JsNumber where
  | nan
  | num (n : Int)
  deriving DecidableEq, Repr

/-- `Number.parseInt(s, 10)` as a JS number. -/
def jsParseIntNum (s : String) : JsNumber :=
  match jsParseInt10 s with
  | some n => .num n
  | none => .nan

/-- One staged/unstaged entry; `status` is one character of the two-character
code (`none` models the JS `undefined` arising on short lines). -/
structure StatusEntry where
  status : Option Char
  path : String
  deriving DecidableEq, Repr

structure ConflictEntry where
  path : String
  detail : String
  deriving DecidableEq, Repr

structure RepoStatus where
  branch : Option String := none
  upstream : Option String := none
  ahead : Option JsNumber := none
  behind : Option JsNumber := none
  staged : List StatusEntry := []
  unstaged : List StatusEntry := []
  untracked : List String := []
  conflicts : List ConflictEntry := []
  deriving DecidableEq, Repr

/-- `parseBranchHeader` from the source (string splits on `' ['`, `'...'`
and `', '`; `replace(']', '')` touches the first bracket only; the
truthiness guards skip empty strings). -/
def parseBranchHeader (header : String) (st : RepoStatus) : RepoStatus :=
  let parts := jsSplitStr " [" header
  let headAndUpstream := parts.getD 0 ""
  let aheadBehind := parts[1]?
  let hu := jsSplitStr "..." headAndUpstream
  let head := hu.getD 0 ""
  let upstream := hu[1]?
  let st := if head ≠ "" ∧ head ≠ "(no branch)" then { st with branch := some head } else st
  let st := match upstream with
    | some u => if u ≠ "" then { st with upstream := some u } else st
    | none => st
  match aheadBehind with
  | none => st
  | some ab =>
    if ab = "" then st
    else
      let cleaned := replaceFirst ab "]" ""
      (jsSplitStr ", " cleaned).foldl
        (fun st token =>
          let st := if strStartsWith token "ahead " then
              { st with ahead := some (jsParseIntNum (strDrop token 6)) }
            else st
          if strStartsWith token "behind " then
            { st with behind := some (jsParseIntNum (strDrop token 7)) }
          else st)
        st

/-- The per-line body of the `gatherGitStatus` loop.  The two status
characters come from `line.slice(0, 2).split('')`; an absent second
character is JS `undefined` (`none`), which passes the `!== ' '` and
`!== '?'` guards just as in the source. -/
def processLine (st : RepoStatus) (line : String) : RepoStatus :=
  if strStartsWith line "## " then parseBranchHeader (strDrop line 3) st
  else if strStartsWith line "??" then
    { st with untracked := st.untracked ++ [strTrim (strDrop line 3)] }
  else
    let changeCode := strTake line 2
    let filePath := strTrim (strDrop line 3)
    let stageStatus := changeCode.data[0]?
    let worktreeStatus := changeCode.data[1]?
    if stageStatus = some 'U' ∨ worktreeStatus = some 'U' then
      { st with conflicts := st.conflicts ++ [⟨filePath, changeCode⟩] }
    else
      let st1 := if stageStatus ≠ some ' ' ∧ stageStatus ≠ some '?' then
          { st with staged := st.staged ++ [⟨stageStatus, filePath⟩] }
        else st
      if worktreeStatus ≠ some ' ' then
        { st1 with unstaged := st1.unstaged ++ [⟨worktreeStatus, filePath⟩] }
      else st1

/-- The preprocessed line list of `gatherGitStatus`: split on newlines,
trimmed at the end, blank lines discarded. -/
def statusLines (raw : String) : List String :=
  ((jsSplitNl raw).map strTrimEnd).filter (fun l => l ≠ "")

/-- `gatherGitStatus` from the source, with the subprocess output
(`git status --short --branch`) supplied as input. -/
def gatherGitStatus (raw : String) : RepoStatus :=
  (statusLines raw).foldl processLine {}

/-! ### Specification-side views of the status loop (used by the theorems) -/

/-- A preprocessed line that is neither the branch header nor an untracked
marker: it carries a two-character status code. -/
def isEntryLine (l : String) : Bool :=
  !(strStartsWith l "## ") && !(strStartsWith l "??")

/-- The entry line's code has the unmerged marker `U` on either side. -/
def entryUnmerged (l : String) : Bool :=
  ((strTake l 2).data[0]? == some 'U') || ((strTake l 2).data[1]? == some 'U')

/-- The path carried by an entry line. -/
def entryPath (l : String) : String := strTrim (strDrop l 3)

/-- The conflict entries a single line contributes. -/
def lineConflicts (l : String) : List ConflictEntry :=
  if isEntryLine l && entryUnmerged l then [⟨entryPath l, strTake l 2⟩] else []

/-- The staged entries a single line contributes. -/
def lineStaged (l : String) : List StatusEntry :=
  if isEntryLine l && !entryUnmerged l &&
      !((strTake l 2).data[0]? == some ' ') && !((strTake l 2).data[0]? == some '?') then
    [⟨(strTake l 2).data[0]?, entryPath l⟩]
  else []

/-- The unstaged entries a single line contributes. -/
def lineUnstaged (l : String) : List StatusEntry :=
  if isEntryLine l && !entryUnmerged l && !((strTake l 2).data[1]? == some ' ') then
    [⟨(strTake l 2).data[1]?, entryPath l⟩]
  else []

/-- Conflict entries contributed by a line list, in order. -/
def conflictsOf : List String → List ConflictEntry
  | [] => []
  | l :: ls => lineConflicts l ++ conflictsOf ls

/-- Staged entries contributed by a line list, in order. -/
def stagedOf : List String → List StatusEntry
  | [] => []
  | l :: ls => lineStaged l ++ stagedOf ls

/-- Unstaged entries contributed by a line list, in order. -/
def unstagedOf : List String → List StatusEntry
  | [] => []
  | l :: ls => lineUnstaged l ++ unstagedOf ls

/-! ## Report formatters and tool handlers -/

/-- JS `s.padEnd(n)`. -/
def padEnd (s : String) (n : Nat) : String :=
  s ++ String.mk (List.replicate (n - s.data.length) ' ')

/-- JS `arr.join(sep)` for a multi-character separator. -/
def jsJoinStr (sep : String) (l : List String) : String :=
  match l with
  | [] => ""
  | [x] => x
  | x :: y :: r => x ++ sep ++ jsJoinStr sep (y :: r)

/-- `formatDiffSummary` from the source. -/
def formatDiffSummary (insights : DiffInsights) : String :=
  let headLines := [
    "Diff source: " ++ (if insights.source = .staged then "staged changes" else "working tree") ++
      " at " ++ insights.repositoryRoot,
    "Files changed: " ++ toString insights.fileCount ++ ", total additions: " ++
      toString insights.totalAdditions ++ ", total deletions: " ++ toString insights.totalDeletions]
  let fileLines := insights.files.map fun file =>
    let displayPath := match file.previousPath with
      | some pp => pp ++ " -> " ++ file.path
      | none => file.path
    let churn := if file.isBinary then "binary file"
      else "+" ++ toString (file.additions.getD 0) ++ " / -" ++ toString (file.deletions.getD 0)
    "- " ++ padEnd file.changeType 2 ++ " " ++ displayPath ++ " (" ++ churn ++ ")"
  jsJoinNl (headLines ++ fileLines)

/-- `buildPatchAppendix` from the source. -/
def buildPatchAppendix (insights : DiffInsights) : Option String :=
  let patches := (insights.files.filter (fun file => file.patch.isSome)).map fun file =>
    let label := match file.previousPath with
      | some pp => pp ++ " -> " ++ file.path
      | none => file.path
    "### " ++ label ++ "\n" ++ file.patch.getD ""
  if patches.length = 0 then none
  else some (jsJoinStr "\n\n" ("## Patch excerpts" :: patches))

/-- `severity.toUpperCase()` over the three severity literals. -/
def severityUpper : FindingSeverity → String
  | .info => "INFO"
  | .warn => "WARN"
  | .critical => "CRITICAL"

/-- `formatHeuristicSummary` from the source. -/
def formatHeuristicSummary (report : HeuristicReport) : String :=
  let headLines := [
    "Heuristic scan for " ++
      (if report.source = .staged then "staged changes" else "working tree") ++
      " at " ++ report.repositoryRoot,
    "Files: " ++ toString report.metrics.fileCount ++ ", churn +" ++
      toString report.metrics.totalAdditions ++ " / -" ++ toString report.metrics.totalDeletions,
    "Code files: " ++ toString report.metrics.codeFiles ++ ", tests: " ++
      toString report.metrics.testFiles ++ ", binary: " ++ toString report.metrics.binaryFiles]
  let bodyLines := if report.findings.length = 0 then ["No heuristic findings."]
    else "Findings:" ::
      report.findings.map (fun finding =>
        "- [" ++ severityUpper finding.severity ++ "] " ++ finding.summary)
  let allLines := if report.suggestions.length ≠ 0 then
      (headLines ++ bodyLines) ++ ("\nNext steps:" :: report.suggestions.map (fun s => "- " ++ s))
    else headLines ++ bodyLines
  jsJoinNl allLines

/-- A value thrown by JS code: an `Error` instance (whose `.message` is
reported) or any other value (reported via `String(error)`). -/
inductive JsThrown where
  | errorObj (message : String)
  | nonError (stringRep : String)
  deriving DecidableEq, Repr

/-- `error instanceof Error ? error.message : String(error)`. -/
def thrownMessage : JsThrown → String
  | .errorObj m => m
  | .nonError s => s

structure ToolContentItem where
  text : String
  deriving DecidableEq, Repr

structure ToolResponse where
  content : List ToolContentItem
  isError : Bool
  deriving DecidableEq, Repr

/-- The `code-review.diff-insights` tool handler as a function of the
outcome of its `try` block (the awaited core pipeline either returns a
`DiffInsights` or raises): the `catch` arm builds the error-flagged
response, the success arm renders the summary and the optional patch
appendix. -/
def diffInsightsHandler (args : DiffInsightsArgs)
    (outcome : Except JsThrown DiffInsights) : ToolResponse :=
  match outcome with
  | .ok insights =>
    let content := [ToolContentItem.mk (formatDiffSummary insights)]
    let content := if args.includePatch then
        match buildPatchAppendix insights with
        | some patchText => content ++ [ToolContentItem.mk patchText]
        | none => content
      else content
    { content := content, isError := false }
  | .error e =>
    { content := [ToolContentItem.mk ("code-review.diff-insights failed: " ++ thrownMessage e)]
      isError := true }

/-- The `code-review.run-heuristics` tool handler as a function of the
outcome of its `try` block; `jsonStringify` stands for the external
`JSON.stringify(report, null, 2)` builtin used on the success path. -/
def runHeuristicsHandler (outcome : Except JsThrown HeuristicReport)
    (jsonStringify : HeuristicReport → String) : ToolResponse :=
  match outcome with
  | .ok report =>
    { content := [ToolContentItem.mk (formatHeuristicSummary report),
        ToolContentItem.mk (jsonStringify report)]
      isError := false }
  | .error e =>
    { content := [ToolContentItem.mk ("code-review.run-heuristics failed: " ++ thrownMessage e)]
      isError := true }

/-! ## Lemmas: the JS `Map` model -/

theorem mapHas_iff {α : Type} (m : List (String × α)) (k : String) :
    mapHas m k = true ↔ k ∈ m.map (·.1) := by
  unfold mapHas
  simp [List.any_eq_true]

theorem mapSet_keys {α : Type} (m : List (String × α)) (k : String) (v : α) :
    (mapSet m k v).map (·.1) =
      if mapHas m k then m.map (·.1) else m.map (·.1) ++ [k] := by
  unfold mapSet mapHas
  split
  · rw [List.map_map]
    apply List.map_congr_left
    intro p _
    by_cases h : p.1 = k <;> simp [h]
  · simp

theorem mapSet_mem_keys {α : Type} (m : List (String × α)) (k k' : String) (v : α) :
    k' ∈ (mapSet m k v).map (·.1) ↔ k' ∈ m.map (·.1) ∨ k' = k := by
  rw [mapSet_keys]
  split
  · next h =>
    constructor
    · exact fun hm => Or.inl hm
    · rintro (hm | rfl)
      · exact hm
      · exact (mapHas_iff m k').mp h
  · simp

theorem mapSet_keys_nodup {α : Type} {m : List (String × α)} (k : String) (v : α)
    (h : (m.map (·.1)).Nodup) : ((mapSet m k v).map (·.1)).Nodup := by
  rw [mapSet_keys]
  split
  · exact h
  · next hh =>
    have hk : k ∉ m.map (·.1) := fun hm => hh ((mapHas_iff m k).mpr hm)
    simp [List.nodup_append, h, hk]

theorem mem_mapSet {α : Type} {m : List (String × α)} {k : String} {v : α} {p : String × α}
    (hp : p ∈ mapSet m k v) : p ∈ m ∨ p = (k, v) := by
  unfold mapSet at hp
  split at hp
  · rcases List.mem_map.mp hp with ⟨q, hq, he⟩
    by_cases h : q.1 = k
    · right
      simp only [h, if_pos] at he
      exact he.symm
    · left
      simp only [h, if_neg, not_false_iff] at he
      exact he ▸ hq
  · rcases List.mem_append.mp hp with h | h
    · exact Or.inl h
    · right
      simpa using h

theorem mapSet_not_has {α : Type} {m : List (String × α)} {k : String} (v : α)
    (h : mapHas m k = false) : mapSet m k v = m ++ [(k, v)] := by
  unfold mapSet
  unfold mapHas at h
  simp [h]

theorem mapGet_eq_some_mem {α : Type} {m : List (String × α)} {k : String} {v : α}
    (h : mapGet m k = some v) : (k, v) ∈ m := by
  unfold mapGet at h
  rcases Option.map_eq_some'.mp h with ⟨p, hfind, hv⟩
  have hmem := List.mem_of_find?_eq_some hfind
  have hpred := List.find?_some hfind
  have hk : p.1 = k := by simpa using hpred
  have : p = (k, v) := by
    cases p
    simp_all
  exact this ▸ hmem

theorem mem_mapGet {α : Type} {m : List (String × α)} {k : String} {v : α}
    (hmem : (k, v) ∈ m) (hnd : (m.map (·.1)).Nodup) : mapGet m k = some v := by
  induction m with
  | nil => cases hmem
  | cons q m ih =>
    rw [List.map_cons, List.nodup_cons] at hnd
    unfold mapGet
    rcases List.mem_cons.mp hmem with rfl | hm
    · simp [List.find?]
    · have hq : (q.1 == k) = false := by
        rw [beq_eq_false_iff_ne]
        rintro rfl
        exact hnd.1 (List.mem_map.mpr ⟨(q.1, v), hm, rfl⟩)
      have hrec := ih hm hnd.2
      unfold mapGet at hrec
      simp [List.find?, hq, hrec]

theorem mapGet_none_iff {α : Type} (m : List (String × α)) (k : String) :
    mapGet m k = none ↔ k ∉ m.map (·.1) := by
  unfold mapGet
  simp only [Option.map_eq_none', List.find?_eq_none, beq_iff_eq, List.mem_map]
  constructor
  · rintro h ⟨p, hp, he⟩
    exact h p hp he
  · rintro h p hp he
    exact h ⟨p, hp, he⟩

/-! ## Lemmas: the two merge folds -/

theorem mergeFold1_mem_keys (ctm : List (String × ChangeInfo)) (ns : List NumstatEntry)
    (fm : List (String × DiffFileChange)) (k : String) :
    k ∈ (mergeFold1 ctm fm ns).map (·.1) ↔
      k ∈ fm.map (·.1) ∨ k ∈ ns.map (·.path) := by
  induction ns generalizing fm with
  | nil => simp [mergeFold1]
  | cons e ns ih =>
    show k ∈ (mergeFold1 ctm (mapSet fm e.path _) ns).map (·.1) ↔ _
    rw [ih]
    rw [mapSet_mem_keys]
    simp only [List.map_cons, List.mem_cons]
    tauto

theorem mergeFold1_nodup (ctm : List (String × ChangeInfo)) (ns : List NumstatEntry)
    {fm : List (String × DiffFileChange)} (h : (fm.map (·.1)).Nodup) :
    ((mergeFold1 ctm fm ns).map (·.1)).Nodup := by
  induction ns generalizing fm with
  | nil => exact h
  | cons e ns ih => exact ih (mapSet_keys_nodup _ _ h)

theorem mergeFold1_mem (ctm : List (String × ChangeInfo)) (ns : List NumstatEntry)
    {fm : List (String × DiffFileChange)} {p : String × DiffFileChange}
    (hp : p ∈ mergeFold1 ctm fm ns) :
    p ∈ fm ∨ ∃ e ∈ ns, p = (e.path, numstatRecord ctm e) := by
  induction ns generalizing fm with
  | nil => exact Or.inl hp
  | cons e ns ih =>
    rcases ih hp with h | ⟨e', he', rfl⟩
    · rcases mem_mapSet h with h' | rfl
      · exact Or.inl h'
      · exact Or.inr ⟨e, List.mem_cons_self .., rfl⟩
    · exact Or.inr ⟨e', List.mem_cons_of_mem _ he', rfl⟩

theorem mergeFold2_mem_keys (ctm : List (String × ChangeInfo))
    (fm : List (String × DiffFileChange)) (k : String) :
    k ∈ (mergeFold2 fm ctm).map (·.1) ↔ k ∈ fm.map (·.1) ∨ k ∈ ctm.map (·.1) := by
  induction ctm generalizing fm with
  | nil => simp [mergeFold2]
  | cons kv ctm ih =>
    show k ∈ (mergeFold2 (if mapHas fm kv.1 then fm else _) ctm).map (·.1) ↔ _
    split
    · next h =>
      rw [ih]
      simp only [List.map_cons, List.mem_cons]
      constructor
      · rintro (hm | hm)
        · exact Or.inl hm
        · exact Or.inr (Or.inr hm)
      · rintro (hm | rfl | hm)
        · exact Or.inl hm
        · exact Or.inl ((mapHas_iff fm kv.1).mp h)
        · exact Or.inr hm
    · rw [ih, mapSet_mem_keys]
      simp only [List.map_cons, List.mem_cons]
      tauto

theorem mergeFold2_nodup (ctm : List (String × ChangeInfo))
    {fm : List (String × DiffFileChange)} (h : (fm.map (·.1)).Nodup) :
    ((mergeFold2 fm ctm).map (·.1)).Nodup := by
  induction ctm generalizing fm with
  | nil => exact h
  | cons kv ctm ih =>
    show ((mergeFold2 (if mapHas fm kv.1 then fm else _) ctm).map (·.1)).Nodup
    split
    · exact ih h
    · exact ih (mapSet_keys_nodup _ _ h)

theorem mergeFold2_mem (ctm : List (String × ChangeInfo))
    {fm : List (String × DiffFileChange)} {p : String × DiffFileChange}
    (hp : p ∈ mergeFold2 fm ctm) :
    p ∈ fm ∨ ∃ kv ∈ ctm, p = (kv.1, nameStatusOnlyRecord kv.1 kv.2) := by
  induction ctm generalizing fm with
  | nil => exact Or.inl hp
  | cons kv ctm ih =>
    have hp' : p ∈ mergeFold2 (if mapHas fm kv.1 then fm else mapSet fm kv.1 (nameStatusOnlyRecord kv.1 kv.2)) ctm := hp
    rcases ih hp' with h | ⟨kv', hkv', rfl⟩
    · split at h
      · exact Or.inl h
      · rcases mem_mapSet h with h' | rfl
        · exact Or.inl h'
        · exact Or.inr ⟨kv, List.mem_cons_self .., rfl⟩
    · exact Or.inr ⟨kv', List.mem_cons_of_mem _ hkv', rfl⟩

theorem mergeFold2_mono (ctm : List (String × ChangeInfo))
    {fm : List (String × DiffFileChange)} {p : String × DiffFileChange} (hp : p ∈ fm) :
    p ∈ mergeFold2 fm ctm := by
  induction ctm generalizing fm with
  | nil => exact hp
  | cons kv ctm ih =>
    show p ∈ mergeFold2 (if mapHas fm kv.1 then fm else _) ctm
    split
    · exact ih hp
    · next h =>
      refine ih ?_
      rw [mapSet_not_has _ (by simpa using h)]
      exact List.mem_append_left _ hp

theorem mergeFold2_new (ctm : List (String × ChangeInfo))
    {fm : List (String × DiffFileChange)} {k : String}
    (hk : k ∈ ctm.map (·.1)) (hfm : k ∉ fm.map (·.1)) :
    ∃ ci, (k, ci) ∈ ctm ∧ (k, nameStatusOnlyRecord k ci) ∈ mergeFold2 fm ctm := by
  induction ctm generalizing fm with
  | nil => simp at hk
  | cons kv ctm ih =>
    by_cases hke : kv.1 = k
    · have hnot : mapHas fm kv.1 = false := by
        rw [Bool.eq_false_iff]
        intro hh
        exact hfm (hke ▸ (mapHas_iff fm kv.1).mp hh)
      refine ⟨kv.2, by simp [← hke], ?_⟩
      show (k, nameStatusOnlyRecord k kv.2) ∈
        mergeFold2 (if mapHas fm kv.1 then fm else mapSet fm kv.1 (nameStatusOnlyRecord kv.1 kv.2)) ctm
      rw [hnot]
      simp only [Bool.false_eq_true, if_false]
      apply mergeFold2_mono
      rw [mapSet_not_has _ hnot, hke]
      exact List.mem_append_right _ (by simp)
    · have hk' : k ∈ ctm.map (·.1) := by
        rw [List.map_cons] at hk
        rcases List.mem_cons.mp hk with h | h
        · exact absurd h.symm hke
        · exact h
      show ∃ ci, _ ∧ (k, nameStatusOnlyRecord k ci) ∈
        mergeFold2 (if mapHas fm kv.1 then fm else mapSet fm kv.1 (nameStatusOnlyRecord kv.1 kv.2)) ctm
      split
      · rcases ih hk' hfm with ⟨ci, hci, hmem⟩
        exact ⟨ci, List.mem_cons_of_mem _ hci, hmem⟩
      · have hfm' : k ∉ (mapSet fm kv.1 (nameStatusOnlyRecord kv.1 kv.2)).map (·.1) := by
          rw [mapSet_mem_keys]
          rintro (h | rfl)
          · exact hfm h
          · exact hke rfl
        rcases ih hk' hfm' with ⟨ci, hci, hmem⟩
        exact ⟨ci, List.mem_cons_of_mem _ hci, hmem⟩

/-- Every pair in the merged file map satisfies `value.path = key`. -/
theorem mergeFolds_path_eq_key (ctm : List (String × ChangeInfo)) (ns : List NumstatEntry)
    {p : String × DiffFileChange}
    (hp : p ∈ mergeFold2 (mergeFold1 ctm [] ns) ctm) : p.2.path = p.1 := by
  rcases mergeFold2_mem ctm hp with h | ⟨kv, _, rfl⟩
  · rcases mergeFold1_mem ctm ns h with h' | ⟨e, _, rfl⟩
    · cases h'
    · rfl
  · rfl

/-! ## Lemmas: sorting and `parseNameStatus` keys -/

theorem insertByPath_perm (x : DiffFileChange) (l : List DiffFileChange) :
    (insertByPath x l).Perm (x :: l) := by
  induction l with
  | nil => exact List.Perm.refl _
  | cons y ys ih =>
    unfold insertByPath
    split
    · exact List.Perm.refl _
    · exact (ih.cons y).trans (List.Perm.swap x y ys)

theorem sortByPath_perm (l : List DiffFileChange) : (sortByPath l).Perm l := by
  induction l with
  | nil => exact List.Perm.refl _
  | cons x xs ih => exact (insertByPath_perm x (sortByPath xs)).trans (ih.cons x)

theorem parseNameStatusLine_nodup {m : List (String × ChangeInfo)} (line : String)
    (h : (m.map (·.1)).Nodup) : ((parseNameStatusLine m line).map (·.1)).Nodup := by
  simp only [parseNameStatusLine]
  repeat' split
  all_goals first
    | exact h
    | exact mapSet_keys_nodup _ _ h

theorem parseNameStatus_nodup (raw : String) :
    ((parseNameStatus raw).map (·.1)).Nodup := by
  unfold parseNameStatus
  generalize jsSplitNl raw = lines
  have : ∀ (ls : List String) (m : List (String × ChangeInfo)),
      (m.map (·.1)).Nodup → ((ls.foldl parseNameStatusLine m).map (·.1)).Nodup := by
    intro ls
    induction ls with
    | nil => exact fun m h => h
    | cons l ls ih => exact fun m h => ih _ (parseNameStatusLine_nodup l h)
  exact this lines [] (by simp)

/-- The merged list before any filtering, i.e. the `paths = none` branch of
`mergeDiffData`. -/
theorem mergeDiffData_none (ctm : List (String × ChangeInfo)) (ns : List NumstatEntry)
    (args : DiffInsightsArgs) (h : args.paths = none) :
    mergeDiffData ctm ns args =
      sortByPath ((mergeFold2 (mergeFold1 ctm [] ns) ctm).map (·.2)) := by
  unfold mergeDiffData
  rw [h]

theorem merged_map_path_perm_keys (ctm : List (String × ChangeInfo))
    (ns : List NumstatEntry) :
    ((sortByPath ((mergeFold2 (mergeFold1 ctm [] ns) ctm).map (·.2))).map (·.path)).Perm
      ((mergeFold2 (mergeFold1 ctm [] ns) ctm).map (·.1)) := by
  have h1 := (sortByPath_perm ((mergeFold2 (mergeFold1 ctm [] ns) ctm).map (·.2))).map
    (fun f => f.path)
  have h2 : ((mergeFold2 (mergeFold1 ctm [] ns) ctm).map (·.2)).map (·.path) =
      (mergeFold2 (mergeFold1 ctm [] ns) ctm).map (·.1) := by
    rw [List.map_map]
    exact List.map_congr_left fun p hp => mergeFolds_path_eq_key ctm ns hp
  exact h2 ▸ h1

/-- **C1.** With no path-subset filter, `mergeDiffData` produces exactly one
record per distinct path: the merged paths are duplicate-free, a path occurs
in the merged list iff it occurs in the numstat parse or in the name-status
parse, and a path known only to the name-status parse yields a record with
zero counts and `isBinary = true`. -/
theorem mergeDiffData_exactly_one_record_per_path
    (nameStatusRaw numstatRaw : String) (args : DiffInsightsArgs)
    (hpaths : args.paths = none) :
    ((mergeDiffData (parseNameStatus nameStatusRaw) (parseNumstat numstatRaw) args).map
        (·.path)).Nodup ∧
    (∀ p, p ∈ (mergeDiffData (parseNameStatus nameStatusRaw) (parseNumstat numstatRaw)
          args).map (·.path) ↔
        p ∈ (parseNumstat numstatRaw).map (·.path) ∨
          p ∈ (parseNameStatus nameStatusRaw).map (·.1)) ∧
    (∀ p, p ∈ (parseNameStatus nameStatusRaw).map (·.1) →
      p ∉ (parseNumstat numstatRaw).map (·.path) →
      ∃ f ∈ mergeDiffData (parseNameStatus nameStatusRaw) (parseNumstat numstatRaw) args,
        f.path = p ∧ f.additions = some 0 ∧ f.deletions = some 0 ∧ f.isBinary = true) := by
  rw [mergeDiffData_none _ _ _ hpaths]
  have hperm := merged_map_path_perm_keys (parseNameStatus nameStatusRaw)
    (parseNumstat numstatRaw)
  have hnd : ((mergeFold2 (mergeFold1 (parseNameStatus nameStatusRaw) []
      (parseNumstat numstatRaw)) (parseNameStatus nameStatusRaw)).map (·.1)).Nodup :=
    mergeFold2_nodup _ (mergeFold1_nodup _ _ (by simp))
  refine ⟨hperm.nodup_iff.mpr hnd, fun p => ?_, fun p hctm hns => ?_⟩
  · rw [hperm.mem_iff, mergeFold2_mem_keys, mergeFold1_mem_keys]
    simp
  · have hnotin : p ∉ (mergeFold1 (parseNameStatus nameStatusRaw) []
        (parseNumstat numstatRaw)).map (·.1) := by
      rw [mergeFold1_mem_keys]
      rintro (h | h)
      · simp at h
      · exact hns h
    rcases mergeFold2_new (parseNameStatus nameStatusRaw) hctm hnotin with ⟨ci, _, hmem⟩
    refine ⟨nameStatusOnlyRecord p ci, ?_, rfl, rfl, rfl, rfl⟩
    rw [(sortByPath_perm _).mem_iff]
    exact List.mem_map.mpr ⟨(p, nameStatusOnlyRecord p ci), hmem, rfl⟩

/-- Witness for C1 at a concrete pair of parsed outputs: a rename-only path
(`new.ts`, present only in the name-status parse) and two numstat paths. -/
theorem mergeDiffData_exactly_one_record_per_path_witness :
    ((mergeDiffData (parseNameStatus "M\tb.txt\nR100\told.ts\tnew.ts")
        (parseNumstat "1\t2\tb.txt\n-\t-\tc.bin")
        ⟨none, .staged, none, false, 400⟩).map (·.path)).Nodup ∧
    (∃ f ∈ mergeDiffData (parseNameStatus "M\tb.txt\nR100\told.ts\tnew.ts")
        (parseNumstat "1\t2\tb.txt\n-\t-\tc.bin") ⟨none, .staged, none, false, 400⟩,
      f.path = "new.ts" ∧ f.additions = some 0 ∧ f.deletions = some 0 ∧
        f.isBinary = true) := by
  have h := mergeDiffData_exactly_one_record_per_path "M\tb.txt\nR100\told.ts\tnew.ts"
    "1\t2\tb.txt\n-\t-\tc.bin" ⟨none, .staged, none, false, 400⟩ rfl
  exact ⟨h.1, h.2.2 "new.ts" (by decide) (by decide)⟩

/-- Membership in any `mergeDiffData` result implies membership in the
unfiltered, unsorted file-map values. -/
theorem mergeDiffData_mem_base {ctm : List (String × ChangeInfo)} {ns : List NumstatEntry}
    {args : DiffInsightsArgs} {f : DiffFileChange}
    (hf : f ∈ mergeDiffData ctm ns args) :
    f ∈ (mergeFold2 (mergeFold1 ctm [] ns) ctm).map (·.2) := by
  unfold mergeDiffData at hf
  have hsub : f ∈ sortByPath ((mergeFold2 (mergeFold1 ctm [] ns) ctm).map (·.2)) := by
    rcases hargs : args.paths with _ | ps
    · rwa [hargs] at hf
    · rw [hargs] at hf
      dsimp only at hf
      split at hf
      · exact (List.mem_filter.mp hf).1
      · exact hf
  exact (sortByPath_perm _).mem_iff.mp hsub

/-- **C6.** For every merged record, the change type comes from the
name-status map when that map knows the path, and otherwise from
`inferChangeType`, whose policy is exactly: both counts zero ⟹ `M`;
non-null additions with null deletions ⟹ `A`; everything else ⟹ `M`. -/
theorem mergeDiffData_changeType_policy
    (nameStatusRaw numstatRaw : String) (args : DiffInsightsArgs) (f : DiffFileChange)
    (hf : f ∈ mergeDiffData (parseNameStatus nameStatusRaw) (parseNumstat numstatRaw) args) :
    (f.changeType = match mapGet (parseNameStatus nameStatusRaw) f.path with
      | some ci => ci.changeType
      | none => inferChangeType f.additions f.deletions) ∧
    (∀ a d : Option Int, inferChangeType a d =
      if a = some 0 ∧ d = some 0 then "M"
      else if a ≠ none ∧ d = none then "A"
      else "M") := by
  constructor
  · have hbase := mergeDiffData_mem_base hf
    rcases List.mem_map.mp hbase with ⟨p, hp, rfl⟩
    rcases mergeFold2_mem _ hp with h1 | ⟨kv, hkv, rfl⟩
    · rcases mergeFold1_mem _ _ h1 with h2 | ⟨e, _, rfl⟩
      · cases h2
      · show (numstatRecord _ e).changeType = _
        cases hget : mapGet (parseNameStatus nameStatusRaw) e.path <;>
          simp [numstatRecord, hget]
    · show (nameStatusOnlyRecord kv.1 kv.2).changeType = _
      have hget : mapGet (parseNameStatus nameStatusRaw) kv.1 = some kv.2 :=
        mem_mapGet (by simpa using hkv) (parseNameStatus_nodup nameStatusRaw)
      simp [nameStatusOnlyRecord, hget]
  · intro a d
    rfl

/-- Witness for C6: a numstat-only binary-marker line `3\t-\tx.bin` with no
name-status record is inferred as `A`. -/
theorem mergeDiffData_changeType_policy_witness :
    ((⟨"x.bin", "A", some 3, none, true, none, none⟩ : DiffFileChange).changeType =
      match mapGet (parseNameStatus "") "x.bin" with
      | some ci => ci.changeType
      | none => inferChangeType (some 3) none) ∧
    inferChangeType (some 3) none =
      (if (some 3 : Option Int) = some 0 ∧ (none : Option Int) = some 0 then "M"
       else if (some 3 : Option Int) ≠ none ∧ (none : Option Int) = none then "A"
       else "M") := by
  have h := mergeDiffData_changeType_policy "" "3\t-\tx.bin"
    ⟨none, .staged, none, false, 400⟩
    ⟨"x.bin", "A", some 3, none, true, none, none⟩ (by decide)
  exact ⟨h.1, h.2 (some 3) none⟩

/-! ## Lemmas: totals and patch attachment shape -/

theorem computeTotals_eq (files : List DiffFileChange) :
    computeTotals files =
      ((files.filterMap (·.additions)).sum, (files.filterMap (·.deletions)).sum) := by
  have key : ∀ (fs : List DiffFileChange) (acc : Int × Int),
      fs.foldl
        (fun acc file =>
          let acc1 := match file.additions with
            | some n => (acc.1 + n, acc.2)
            | none => acc
          match file.deletions with
          | some n => (acc1.1, acc1.2 + n)
          | none => acc1)
        acc =
      (acc.1 + (fs.filterMap (·.additions)).sum,
        acc.2 + (fs.filterMap (·.deletions)).sum) := by
    intro fs
    induction fs with
    | nil => intro acc; simp
    | cons f fs ih =>
      intro acc
      rw [List.foldl_cons, ih]
      cases ha : f.additions <;> cases hd : f.deletions <;>
        simp [ha, hd, List.filterMap_cons, Prod.ext_iff, add_assoc]
  unfold computeTotals
  rw [key]
  simp

theorem updateFirstPatch_erase (pred : DiffFileChange → Bool) (np : String)
    (l : List DiffFileChange) :
    (updateFirstPatch pred np l).map erasePatch = l.map erasePatch := by
  induction l with
  | nil => rfl
  | cons f fs ih =>
    unfold updateFirstPatch
    split
    · simp only [List.map_cons]
      rfl
    · simp only [List.map_cons, ih]

theorem attachPatchSnippets_erase (files : List DiffFileChange) (rawPatch : String)
    (maxLines : Nat) :
    (attachPatchSnippets files rawPatch maxLines).map erasePatch = files.map erasePatch := by
  unfold attachPatchSnippets
  split
  · rfl
  · generalize splitUnifiedDiff rawPatch = segs
    induction segs generalizing files with
    | nil => rfl
    | cons seg segs ih =>
      rw [List.foldl_cons]
      rw [ih]
      exact updateFirstPatch_erase _ _ files

/-- Counts are untouched by patch attachment. -/
theorem attachPatchSnippets_filterMap_additions (files : List DiffFileChange)
    (rawPatch : String) (maxLines : Nat) :
    (attachPatchSnippets files rawPatch maxLines).filterMap (·.additions) =
      files.filterMap (·.additions) := by
  have h1 : ∀ l : List DiffFileChange,
      l.filterMap (·.additions) = (l.map erasePatch).filterMap (·.additions) := by
    intro l
    rw [List.filterMap_map]
    rfl
  rw [h1, attachPatchSnippets_erase, ← h1]

theorem attachPatchSnippets_filterMap_deletions (files : List DiffFileChange)
    (rawPatch : String) (maxLines : Nat) :
    (attachPatchSnippets files rawPatch maxLines).filterMap (·.deletions) =
      files.filterMap (·.deletions) := by
  have h1 : ∀ l : List DiffFileChange,
      l.filterMap (·.deletions) = (l.map erasePatch).filterMap (·.deletions) := by
    intro l
    rw [List.filterMap_map]
    rfl
  rw [h1, attachPatchSnippets_erase, ← h1]

/-- Membership after patch attachment preserves every non-patch field. -/
theorem attachPatchSnippets_mem_shape {files : List DiffFileChange} {rawPatch : String}
    {maxLines : Nat} {f : DiffFileChange}
    (hf : f ∈ attachPatchSnippets files rawPatch maxLines) :
    ∃ g ∈ files, erasePatch g = erasePatch f := by
  have hmap : erasePatch f ∈ (attachPatchSnippets files rawPatch maxLines).map erasePatch :=
    List.mem_map.mpr ⟨f, hf, rfl⟩
  rw [attachPatchSnippets_erase] at hmap
  rcases List.mem_map.mp hmap with ⟨g, hg, he⟩
  exact ⟨g, hg, he⟩

/-- Count/binary shape of every merged record: numstat-derived records carry
the entry's counts with `isBinary` true iff either count is null; the
remaining records carry zero counts and `isBinary = true`. -/
theorem mergeDiffData_counts_shape {ctm : List (String × ChangeInfo)}
    {ns : List NumstatEntry} {args : DiffInsightsArgs} {f : DiffFileChange}
    (hf : f ∈ mergeDiffData ctm ns args) :
    (∃ e ∈ ns, f.additions = e.additions ∧ f.deletions = e.deletions ∧
      f.isBinary = (e.additions.isNone || e.deletions.isNone)) ∨
    (f.additions = some 0 ∧ f.deletions = some 0 ∧ f.isBinary = true) := by
  have hbase := mergeDiffData_mem_base hf
  rcases List.mem_map.mp hbase with ⟨p, hp, rfl⟩
  rcases mergeFold2_mem _ hp with h1 | ⟨kv, _, rfl⟩
  · rcases mergeFold1_mem _ _ h1 with h2 | ⟨e, he, rfl⟩
    · cases h2
    · exact Or.inl ⟨e, he, rfl, rfl, rfl⟩
  · exact Or.inr ⟨rfl, rfl, rfl⟩

theorem binary_zero_sum (L : List DiffFileChange)
    (h : ∀ f ∈ L, f.isBinary = true → f.additions = none ∨ f.additions = some 0) :
    (L.filterMap (·.additions)).sum =
      ((L.filter (fun f => !f.isBinary)).filterMap (·.additions)).sum := by
  induction L with
  | nil => rfl
  | cons f fs ih =>
    have hfs := ih (fun g hg => h g (List.mem_cons_of_mem f hg))
    by_cases hb : f.isBinary = true
    · rcases h f (List.mem_cons_self ..) hb with ha | ha <;>
        simp [List.filterMap_cons, List.filter_cons, ha, hb, hfs]
    · have hb' : f.isBinary = false := by
        rwa [Bool.not_eq_true] at hb
      cases ha : f.additions <;>
        simp [List.filterMap_cons, List.filter_cons, ha, hb', hfs]

theorem binary_zero_sum_del (L : List DiffFileChange)
    (h : ∀ f ∈ L, f.isBinary = true → f.deletions = none ∨ f.deletions = some 0) :
    (L.filterMap (·.deletions)).sum =
      ((L.filter (fun f => !f.isBinary)).filterMap (·.deletions)).sum := by
  induction L with
  | nil => rfl
  | cons f fs ih =>
    have hfs := ih (fun g hg => h g (List.mem_cons_of_mem f hg))
    by_cases hb : f.isBinary = true
    · rcases h f (List.mem_cons_self ..) hb with ha | ha <;>
        simp [List.filterMap_cons, List.filter_cons, ha, hb, hfs]
    · have hb' : f.isBinary = false := by
        rwa [Bool.not_eq_true] at hb
      cases ha : f.deletions <;>
        simp [List.filterMap_cons, List.filter_cons, ha, hb', hfs]

/-- **C2 (counterexample).** On the numstat line `5\t-\tx.bin` the single
merged record has `isBinary = true` yet contributes 5 to `totalAdditions`:
a file with `isBinary = true` does not always contribute zero to the sums. -/
theorem gatherDiffInsights_binary_contribution_cex :
    (gatherDiffInsights "/repo" ⟨none, .staged, none, false, 400⟩ "" "5\t-\tx.bin" "").files =
      [⟨"x.bin", "A", some 5, none, true, none, none⟩] ∧
    (gatherDiffInsights "/repo" ⟨none, .staged, none, false, 400⟩ "" "5\t-\tx.bin"
        "").totalAdditions = 5 := by
  constructor <;> decide

/-- **C2 (amended).** `totalAdditions`/`totalDeletions` are exactly the sums
of the non-null `additions`/`deletions` over `files` (null fields are never
counted); consequently a record whose two counts are both null contributes
nothing, and whenever every parsed numstat entry has its two counts null
together — the shape the external tool's output contract guarantees — every
file with `isBinary = true` contributes zero to both sums. -/
theorem gatherDiffInsights_totals (repoRoot : String) (args : DiffInsightsArgs)
    (nameStatusRaw numstatRaw patchRaw : String) :
    (gatherDiffInsights repoRoot args nameStatusRaw numstatRaw patchRaw).totalAdditions =
      ((gatherDiffInsights repoRoot args nameStatusRaw numstatRaw
        patchRaw).files.filterMap (·.additions)).sum ∧
    (gatherDiffInsights repoRoot args nameStatusRaw numstatRaw patchRaw).totalDeletions =
      ((gatherDiffInsights repoRoot args nameStatusRaw numstatRaw
        patchRaw).files.filterMap (·.deletions)).sum ∧
    ((∀ e ∈ parseNumstat numstatRaw, (e.additions = none ↔ e.deletions = none)) →
      (gatherDiffInsights repoRoot args nameStatusRaw numstatRaw patchRaw).totalAdditions =
        (((gatherDiffInsights repoRoot args nameStatusRaw numstatRaw patchRaw).files.filter
          (fun f => !f.isBinary)).filterMap (·.additions)).sum ∧
      (gatherDiffInsights repoRoot args nameStatusRaw numstatRaw patchRaw).totalDeletions =
        (((gatherDiffInsights repoRoot args nameStatusRaw numstatRaw patchRaw).files.filter
          (fun f => !f.isBinary)).filterMap (·.deletions)).sum) := by
  have hfiles : (gatherDiffInsights repoRoot args nameStatusRaw numstatRaw patchRaw).files =
      (if args.includePatch then
        attachPatchSnippets
          (mergeDiffData (parseNameStatus nameStatusRaw) (parseNumstat numstatRaw) args)
          patchRaw args.maxPatchLines
      else mergeDiffData (parseNameStatus nameStatusRaw) (parseNumstat numstatRaw) args) :=
    rfl
  have hadd : (gatherDiffInsights repoRoot args nameStatusRaw numstatRaw
      patchRaw).files.filterMap (·.additions) =
      (mergeDiffData (parseNameStatus nameStatusRaw) (parseNumstat numstatRaw)
        args).filterMap (·.additions) := by
    rw [hfiles]
    split
    · exact attachPatchSnippets_filterMap_additions _ _ _
    · rfl
  have hdel : (gatherDiffInsights repoRoot args nameStatusRaw numstatRaw
      patchRaw).files.filterMap (·.deletions) =
      (mergeDiffData (parseNameStatus nameStatusRaw) (parseNumstat numstatRaw)
        args).filterMap (·.deletions) := by
    rw [hfiles]
    split
    · exact attachPatchSnippets_filterMap_deletions _ _ _
    · rfl
  have htotA : (gatherDiffInsights repoRoot args nameStatusRaw numstatRaw
      patchRaw).totalAdditions =
      ((mergeDiffData (parseNameStatus nameStatusRaw) (parseNumstat numstatRaw)
        args).filterMap (·.additions)).sum := by
    show (computeTotals _).1 = _
    rw [computeTotals_eq]
  have htotD : (gatherDiffInsights repoRoot args nameStatusRaw numstatRaw
      patchRaw).totalDeletions =
      ((mergeDiffData (parseNameStatus nameStatusRaw) (parseNumstat numstatRaw)
        args).filterMap (·.deletions)).sum := by
    show (computeTotals _).2 = _
    rw [computeTotals_eq]
  refine ⟨by rw [htotA, hadd], by rw [htotD, hdel], fun hwf => ?_⟩
  have hshape : ∀ f ∈ (gatherDiffInsights repoRoot args nameStatusRaw numstatRaw
      patchRaw).files, f.isBinary = true →
      (f.additions = none ∨ f.additions = some 0) ∧
        (f.deletions = none ∨ f.deletions = some 0) := by
    intro f hf hb
    have hmem : ∃ g ∈ mergeDiffData (parseNameStatus nameStatusRaw)
        (parseNumstat numstatRaw) args, erasePatch g = erasePatch f := by
      rw [hfiles] at hf
      split at hf
      · exact attachPatchSnippets_mem_shape hf
      · exact ⟨f, hf, rfl⟩
    rcases hmem with ⟨g, hg, hge⟩
    have hga : g.additions = f.additions := by
      have := congrArg DiffFileChange.additions hge
      simpa [erasePatch] using this
    have hgd : g.deletions = f.deletions := by
      have := congrArg DiffFileChange.deletions hge
      simpa [erasePatch] using this
    have hgb : g.isBinary = f.isBinary := by
      have := congrArg DiffFileChange.isBinary hge
      simpa [erasePatch] using this
    rcases mergeDiffData_counts_shape hg with ⟨e, he, hea, hed, heb⟩ | ⟨ha, hd, _⟩
    · have hwe := hwf e he
      rw [hga] at hea
      rw [hgd] at hed
      rw [hgb, hb] at heb
      rcases Bool.or_eq_true_iff.mp heb.symm with hn | hn
      · rw [Option.isNone_iff_eq_none] at hn
        refine ⟨Or.inl (hea.trans hn), Or.inl ?_⟩
        rw [hed]
        exact hwe.mp hn
      · rw [Option.isNone_iff_eq_none] at hn
        refine ⟨Or.inl ?_, Or.inl (hed.trans hn)⟩
        rw [hea]
        exact hwe.mpr hn
    · exact ⟨Or.inr (hga ▸ ha), Or.inr (hgd ▸ hd)⟩
  constructor
  · rw [htotA, hadd.symm]
    exact binary_zero_sum _ (fun f hf hb => (hshape f hf hb).1)
  · rw [htotD, hdel.symm]
    exact binary_zero_sum_del _ (fun f hf hb => (hshape f hf hb).2)

/-- Witness for C2 (amended) at a concrete mixed diff containing one binary
and one text file. -/
theorem gatherDiffInsights_totals_witness :
    (gatherDiffInsights "/repo" ⟨none, .staged, none, false, 400⟩ "M\ta.ts\nA\timg.png"
        "12\t3\ta.ts\n-\t-\timg.png" "").totalAdditions =
      ((gatherDiffInsights "/repo" ⟨none, .staged, none, false, 400⟩ "M\ta.ts\nA\timg.png"
        "12\t3\ta.ts\n-\t-\timg.png" "").files.filterMap (·.additions)).sum ∧
    (gatherDiffInsights "/repo" ⟨none, .staged, none, false, 400⟩ "M\ta.ts\nA\timg.png"
        "12\t3\ta.ts\n-\t-\timg.png" "").totalAdditions =
      (((gatherDiffInsights "/repo" ⟨none, .staged, none, false, 400⟩ "M\ta.ts\nA\timg.png"
        "12\t3\ta.ts\n-\t-\timg.png" "").files.filter
          (fun f => !f.isBinary)).filterMap (·.additions)).sum := by
  have h := gatherDiffInsights_totals "/repo" ⟨none, .staged, none, false, 400⟩
    "M\ta.ts\nA\timg.png" "12\t3\ta.ts\n-\t-\timg.png" ""
  exact ⟨h.1, (h.2.2 (by decide)).1⟩

/-! ## Lemmas: the path-subset filter -/

theorem string_length_zero {s : String} (h : s.length = 0) : s = "" := by
  cases s with
  | mk data =>
    cases data with
    | nil => rfl
    | cons c t => simp [String.length] at h

/-- **C9.** With a non-empty path filter, a merged record survives iff its
normalized path is string-equal to the normalized form of some filter entry;
in particular a record whose normalized path strictly extends every filter
entry by a `/`-separated non-empty suffix — a file strictly inside a
directory named by the filter — is dropped. -/
theorem mergeDiffData_filter_exact_match (ctm : List (String × ChangeInfo))
    (ns : List NumstatEntry) (args : DiffInsightsArgs) (ps : List String)
    (hp : args.paths = some ps) (hne : ps ≠ []) :
    (∀ f, f ∈ mergeDiffData ctm ns args ↔
      (f ∈ mergeDiffData ctm ns { args with paths := none } ∧
        ∃ e ∈ ps, normalizePathForComparison e = normalizePathForComparison f.path)) ∧
    (∀ f ∈ mergeDiffData ctm ns { args with paths := none },
      (∀ e ∈ ps, ∃ suff, suff ≠ "" ∧
        normalizePathForComparison f.path = normalizePathForComparison e ++ "/" ++ suff) →
      f ∉ mergeDiffData ctm ns args) := by
  have hbase : mergeDiffData ctm ns { args with paths := none } =
      sortByPath ((mergeFold2 (mergeFold1 ctm [] ns) ctm).map (·.2)) :=
    mergeDiffData_none _ _ _ rfl
  have hlen : ps.length ≠ 0 := fun h => hne (List.length_eq_zero.mp h)
  have hfilter : mergeDiffData ctm ns args =
      (sortByPath ((mergeFold2 (mergeFold1 ctm [] ns) ctm).map (·.2))).filter
        (fun file => (ps.map normalizePathForComparison).contains
          (normalizePathForComparison file.path)) := by
    unfold mergeDiffData
    rw [hp]
    simp [hlen]
  have hiff : ∀ f, f ∈ mergeDiffData ctm ns args ↔
      (f ∈ mergeDiffData ctm ns { args with paths := none } ∧
        ∃ e ∈ ps, normalizePathForComparison e = normalizePathForComparison f.path) := by
    intro f
    rw [hfilter, hbase, List.mem_filter]
    constructor
    · rintro ⟨hmem, hcont⟩
      refine ⟨hmem, ?_⟩
      rcases List.mem_map.mp (List.elem_iff.mp hcont) with ⟨e, he, hee⟩
      exact ⟨e, he, hee⟩
    · rintro ⟨hmem, e, he, hee⟩
      exact ⟨hmem, List.elem_iff.mpr (List.mem_map.mpr ⟨e, he, hee⟩)⟩
  refine ⟨hiff, fun f hmem hall hin => ?_⟩
  rcases (hiff f).mp hin with ⟨_, e, he, hee⟩
  rcases hall e he with ⟨suff, hs, heq⟩
  rw [hee] at heq
  have hlen2 := congrArg String.length heq
  rw [String.length_append, String.length_append] at hlen2
  have hone : ("/" : String).length = 1 := rfl
  rw [hone] at hlen2
  have hz : suff.length = 0 := by omega
  exact hs (string_length_zero hz)

/-- Witness for C9: the filter entry `src` (a directory) does not retain the
file `src/a.ts` that lies inside it. -/
theorem mergeDiffData_filter_exact_match_witness :
    (⟨"src/a.ts", "M", some 1, some 2, false, none, none⟩ : DiffFileChange) ∈
        mergeDiffData (parseNameStatus "M\tsrc/a.ts") (parseNumstat "1\t2\tsrc/a.ts")
          ⟨none, .staged, some ["src"], false, 400⟩ ↔
      ((⟨"src/a.ts", "M", some 1, some 2, false, none, none⟩ : DiffFileChange) ∈
          mergeDiffData (parseNameStatus "M\tsrc/a.ts") (parseNumstat "1\t2\tsrc/a.ts")
            { (⟨none, .staged, some ["src"], false, 400⟩ : DiffInsightsArgs) with
                paths := none } ∧
        ∃ e ∈ ["src"], normalizePathForComparison e =
          normalizePathForComparison
            (⟨"src/a.ts", "M", some 1, some 2, false, none, none⟩ : DiffFileChange).path) := by
  exact (mergeDiffData_filter_exact_match (parseNameStatus "M\tsrc/a.ts")
    (parseNumstat "1\t2\tsrc/a.ts") ⟨none, .staged, some ["src"], false, 400⟩
    ["src"] rfl (by decide)).1 _

/-! ## Lemmas: totality and field shape of `parseNumstat` -/

theorem jsParseIntOr0_eq_getD (s : String) : jsParseIntOr0 s = (jsParseInt10 s).getD 0 := by
  cases h : jsParseInt10 s <;> simp [jsParseIntOr0, h]

theorem parseNumstatLine_not_blank {line : String} {e : NumstatEntry}
    (h : parseNumstatLine line = some e) : strTrim line ≠ "" := by
  intro hb
  simp [parseNumstatLine, hb] at h

/-- **C10.** The numstat parser is total and safe on arbitrary text: it
yields at most one entry per non-blank line, every entry comes from some
line, a count field is null exactly when its token is `-` (or, for an absent
deletions token, never), and a non-null count always equals the
`parseInt(..., 10)` value with a failed (`NaN`) parse collapsed to `0`. -/
theorem parseNumstat_total_safe (raw : String) :
    (parseNumstat raw).length ≤
      ((jsSplitNl raw).filter (fun l => !(strTrim l == ""))).length ∧
    (∀ e ∈ parseNumstat raw, ∃ line ∈ jsSplitNl raw, parseNumstatLine line = some e) ∧
    (∀ line e, parseNumstatLine line = some e →
      ((e.additions = none ↔ (jsSplitCh '\t' (strTrim line)).getD 0 "" = "-") ∧
        (e.deletions = none ↔ (jsSplitCh '\t' (strTrim line))[1]? = some "-")) ∧
      (∀ n, e.additions = some n →
        n = (jsParseInt10 ((jsSplitCh '\t' (strTrim line)).getD 0 "")).getD 0) ∧
      (∀ n, e.deletions = some n →
        (∀ d, (jsSplitCh '\t' (strTrim line))[1]? = some d → n = (jsParseInt10 d).getD 0) ∧
        ((jsSplitCh '\t' (strTrim line))[1]? = none → n = 0))) := by
  refine ⟨?_, ?_, ?_⟩
  · show ((jsSplitNl raw).filterMap parseNumstatLine).length ≤ _
    generalize jsSplitNl raw = lines
    induction lines with
    | nil => simp
    | cons l ls ih =>
      cases h : parseNumstatLine l
      · by_cases hb : strTrim l = ""
        · simpa [List.filterMap_cons, List.filter_cons, h, hb] using ih
        · simp only [List.filterMap_cons, List.filter_cons, h]
          have hb' : (!(strTrim l == "")) = true := by simp [hb]
          rw [if_pos hb']
          simp only [List.length_cons]
          omega
      · next e =>
        have hb' : (!(strTrim l == "")) = true := by
          simp [parseNumstatLine_not_blank h]
        simp only [List.filterMap_cons, List.filter_cons, h]
        rw [if_pos hb']
        simp only [List.length_cons]
        omega
  · intro e he
    exact List.mem_filterMap.mp he
  · intro line e h
    by_cases h1 : strTrim line = ""
    · exact absurd h1 (parseNumstatLine_not_blank h)
    · rcases hlast : ((jsSplitCh '\t' (strTrim line)).drop 2).getLast? with _ | path
      · simp [parseNumstatLine, h1, hlast] at h
      · by_cases hpe : path = ""
        · simp [parseNumstatLine, h1, hlast, hpe] at h
        · simp only [parseNumstatLine, h1, if_neg (fun hh => h1 hh), hlast, hpe,
            if_false] at h
          rcases Option.some.inj h with rfl
          refine ⟨⟨?_, ?_⟩, ?_, ?_⟩
          · by_cases hA : (jsSplitCh '\t' (strTrim line)).getD 0 "" = "-" <;> simp [hA]
          · rcases hD : (jsSplitCh '\t' (strTrim line))[1]? with _ | d
            · simp [hD]
            · by_cases hdd : d = "-" <;> simp [hD, hdd]
          · intro n hn
            by_cases hA : (jsSplitCh '\t' (strTrim line))[0]?.getD "" = "-"
            · simp [hA] at hn
            · simp [hA, jsParseIntOr0_eq_getD] at hn
              first
              | simpa using hn
              | simpa using hn.symm
          · intro n hn
            constructor
            · intro d hD
              rw [hD] at hn
              by_cases hdd : d = "-"
              · simp [hdd] at hn
              · simp only [if_neg hdd, Option.some.injEq] at hn
                rw [← hn, jsParseIntOr0_eq_getD]
            · intro hD
              rw [hD] at hn
              simpa using hn.symm

/-- Witness for C10: the parse of a two-line numstat output, with the
field-shape facts instantiated on the binary-marker line. -/
theorem parseNumstat_total_safe_witness :
    ((parseNumstat "1\t2\ta.ts\n-\t-\tb.bin").length ≤
      ((jsSplitNl "1\t2\ta.ts\n-\t-\tb.bin").filter
        (fun l => !(strTrim l == ""))).length) ∧
    ((⟨none, none, "b.bin", none⟩ : NumstatEntry).additions = none ↔
      (jsSplitCh '\t' (strTrim "-\t-\tb.bin")).getD 0 "" = "-") := by
  have h := parseNumstat_total_safe "1\t2\ta.ts\n-\t-\tb.bin"
  exact ⟨h.1, (h.2.2 "-\t-\tb.bin" ⟨none, none, "b.bin", none⟩ (by decide)).1.1⟩

/-! ## Lemmas: the heuristic evaluator -/

theorem any_ite_singleton (c : Prop) [Decidable c] (x : ReviewFinding)
    (p : ReviewFinding → Bool) :
    (if c then [x] else []).any p = (decide c && p x) := by
  split <;> simp_all

/-- The `missing-tests` trigger, as a function of the evaluator inputs. -/
theorem missing_tests_fires_eq (diff : DiffInsights) (args : HeuristicArgs) :
    (evaluateHeuristics diff args).findings.any (fun f => f.id == "missing-tests") =
      decide (args.requireTestsForCode = true ∧
        (diff.files.filter isCodeFileChange).length ≠ 0 ∧
        (diff.files.filter isTestFileChange).length = 0) := by
  simp only [evaluateHeuristics, List.any_append, any_ite_singleton,
    largeFilesFinding, missingTestsFinding, configEditsFinding, binaryFilesFinding]
  simp

/-- **C4.** The `missing-tests` finding fires iff `requireTestsForCode` is
set, at least one file classifies as a (non-test) code file, and no file
classifies as a test file — independently of `largeFileThreshold`. -/
theorem evaluateHeuristics_missing_tests_iff (diff : DiffInsights) (args : HeuristicArgs) :
    ((evaluateHeuristics diff args).findings.any (fun f => f.id == "missing-tests") = true ↔
      (args.requireTestsForCode = true ∧
        (∃ f ∈ diff.files, isCodeFileChange f = true) ∧
        (∀ f ∈ diff.files, isTestFileChange f = false))) ∧
    (∀ t : Int,
      (evaluateHeuristics diff { args with largeFileThreshold := t }).findings.any
          (fun f => f.id == "missing-tests") =
        (evaluateHeuristics diff args).findings.any (fun f => f.id == "missing-tests")) := by
  constructor
  · rw [missing_tests_fires_eq, decide_eq_true_iff]
    constructor
    · rintro ⟨h1, h2, h3⟩
      refine ⟨h1, ?_, ?_⟩
      · rcases hfl : diff.files.filter isCodeFileChange with _ | ⟨f, fs⟩
        · exact absurd (by rw [hfl]; rfl) h2
        · have hf : f ∈ diff.files.filter isCodeFileChange := by
            rw [hfl]
            exact List.mem_cons_self ..
          exact ⟨f, (List.mem_filter.mp hf).1, (List.mem_filter.mp hf).2⟩
      · intro f hf
        by_contra hc
        rw [Bool.not_eq_false] at hc
        have : f ∈ diff.files.filter isTestFileChange := List.mem_filter.mpr ⟨hf, hc⟩
        rw [List.length_eq_zero.mp h3] at this
        cases this
    · rintro ⟨h1, ⟨f, hf, hcf⟩, h3⟩
      refine ⟨h1, ?_, ?_⟩
      · intro hlen
        have : f ∈ diff.files.filter isCodeFileChange := List.mem_filter.mpr ⟨hf, hcf⟩
        rw [List.length_eq_zero.mp hlen] at this
        cases this
      · rw [List.length_eq_zero]
        rw [List.filter_eq_nil_iff]
        intro g hg
        simp [h3 g hg]
  · intro t
    rw [missing_tests_fires_eq, missing_tests_fires_eq]

/-! ## Lemmas: test-file classification -/

theorem strContains_iff (s pat : String) :
    strContains s pat = true ↔ ∃ a b, s.data = a ++ pat.data ++ b := by
  unfold strContains
  rw [decide_eq_true_iff]
  constructor
  · rintro ⟨a, b, h⟩
    exact ⟨a, b, h.symm⟩
  · rintro ⟨a, b, h⟩
    exact ⟨a, b, h.symm⟩

theorem strEndsWith_iff (s suf : String) :
    strEndsWith s suf = true ↔ ∃ pre, s.data = pre ++ suf.data := by
  unfold strEndsWith
  rw [decide_eq_true_iff]
  constructor
  · rintro ⟨t, h⟩
    exact ⟨t, h.symm⟩
  · rintro ⟨t, h⟩
    exact ⟨t, h.symm⟩

theorem lastIdxOf_none_iff (c : Char) (l : List Char) :
    lastIdxOf c l = none ↔ c ∉ l := by
  induction l with
  | nil => simp [lastIdxOf]
  | cons x t ih =>
    unfold lastIdxOf
    cases ht : lastIdxOf c t with
    | some i =>
      have hct : c ∈ t := by
        by_contra hc
        have := ih.mpr hc
        rw [ht] at this
        cases this
      simp [hct]
    | none =>
      have hct : c ∉ t := ih.mp ht
      by_cases hx : x = c
      · subst hx
        simp
      · have hcx : ¬c = x := fun hh => hx hh.symm
        simp [hx, hcx, hct]

theorem lastIdxOf_append_cons (c : Char) (a b : List Char) (h : c ∉ b) :
    lastIdxOf c (a ++ c :: b) = some a.length := by
  induction a with
  | nil =>
    have hb : lastIdxOf c b = none := (lastIdxOf_none_iff c b).mpr h
    simp [lastIdxOf, hb]
  | cons x a ih =>
    show lastIdxOf c (x :: (a ++ c :: b)) = _
    unfold lastIdxOf
    rw [ih]
    rfl

theorem lastIdxOf_some_decomp {c : Char} {l : List Char} {i : Nat}
    (h : lastIdxOf c l = some i) :
    ∃ a b, l = a ++ c :: b ∧ a.length = i ∧ c ∉ b := by
  induction l generalizing i with
  | nil => cases h
  | cons x t ih =>
    unfold lastIdxOf at h
    cases ht : lastIdxOf c t with
    | some j =>
      rw [ht] at h
      simp only [Option.some.injEq] at h
      rcases ih ht with ⟨a, b, rfl, rfl, hb⟩
      exact ⟨x :: a, b, rfl, by simp [← h], hb⟩
    | none =>
      rw [ht] at h
      by_cases hx : x = c
      · simp only [hx, if_pos, Option.some.injEq] at h
        refine ⟨[], t, by simp [hx], by simpa using h, (lastIdxOf_none_iff c t).mp ht⟩
      · simp [hx] at h

/-- Regex semantics of `matchesDotSuffix`: the string decomposes as
`stem ++ "." ++ word ++ "." ++ ext` with a non-empty, dot-free `ext`. -/
theorem matchesDotSuffix_iff (word s : String) :
    matchesDotSuffix word s = true ↔
      ∃ st ex, s.data = st ++ ('.' :: word.data ++ ['.']) ++ ex ∧ ex ≠ [] ∧ '.' ∉ ex := by
  unfold matchesDotSuffix
  constructor
  · intro h
    cases hL : lastIdxOf '.' s.data with
    | none => rw [hL] at h; cases h
    | some i =>
      rw [hL] at h
      rcases Bool.and_eq_true_iff.mp h with ⟨hlt, hend⟩
      rcases lastIdxOf_some_decomp hL with ⟨a, b, hsd, hlen, hnb⟩
      rcases (strEndsWith_iff _ _).mp hend with ⟨pre, hpre⟩
      have htake : (s.data.take i).length = i ∧ s.data.take i = a := by
        rw [hsd, ← hlen, List.take_left]
        exact ⟨rfl, rfl⟩
      have ha : a = pre ++ '.' :: word.data := by
        have : (String.mk (s.data.take i)).data = s.data.take i := rfl
        rw [this, htake.2] at hpre
        simpa [String.data_append] using hpre
      have hbne : b ≠ [] := by
        intro hbnil
        rw [decide_eq_true_iff] at hlt
        rw [hsd, hbnil] at hlt
        simp at hlt
        omega
      refine ⟨pre, b, ?_, hbne, hnb⟩
      rw [hsd, ha]
      simp [List.append_assoc]
  · rintro ⟨st, ex, hsd, hex, hnex⟩
    have hsd' : s.data = (st ++ '.' :: word.data) ++ '.' :: ex := by
      rw [hsd]
      simp [List.append_assoc]
    have hL : lastIdxOf '.' s.data = some (st ++ '.' :: word.data).length := by
      rw [hsd']
      exact lastIdxOf_append_cons '.' _ _ hnex
    rw [hL]
    have htake : s.data.take (st ++ '.' :: word.data).length = st ++ '.' :: word.data := by
      rw [hsd']
      exact List.take_left _ _
    rw [Bool.and_eq_true_iff]
    constructor
    · rw [decide_eq_true_iff, hsd']
      simp only [List.length_append, List.length_cons]
      have : ex.length ≠ 0 := fun hz => hex (List.length_eq_zero.mp hz)
      omega
    · rw [htake]
      rw [strEndsWith_iff]
      exact ⟨st, by simp [String.data_append]⟩

/-- **C5 (counterexample).** The classifier misses a `test` directory that
is the first segment of a relative path: `test/foo.ts` is not classified as
a test file even though its normalized form's first segment is the directory
`test`. -/
theorem isTestFileChange_first_segment_cex :
    isTestFileChange ⟨"test/foo.ts", "M", some 1, some 0, false, none, none⟩ = false ∧
    (jsSplitCh '/' (normalizePathForComparison "test/foo.ts")).getD 0 "" = "test" ∧
    (jsSplitCh '/' (normalizePathForComparison "test/foo.ts")).length = 2 := by
  refine ⟨by decide, by decide, by decide⟩

/-- **C5 (amended).** A path classifies as a test file iff its normalized
form contains `/test/`, `/tests/` or `/__tests__/` as a substring (a test
directory segment in non-initial position, or any position of an absolute
path), or the normalized form ends in `.test.<ext>` or `.spec.<ext>` with a
single dot-free extension, or ends in `-test.ts` or `-spec.ts`. -/
theorem isTestFileChange_characterization (file : DiffFileChange) :
    isTestFileChange file = true ↔
      ((∃ a b, (normalizePathForComparison file.path).data = a ++ "/test/".data ++ b) ∨
       (∃ a b, (normalizePathForComparison file.path).data = a ++ "/tests/".data ++ b) ∨
       (∃ a b, (normalizePathForComparison file.path).data = a ++ "/__tests__/".data ++ b) ∨
       (∃ st ex, (normalizePathForComparison file.path).data =
          st ++ ('.' :: "test".data ++ ['.']) ++ ex ∧ ex ≠ [] ∧ '.' ∉ ex) ∨
       (∃ st ex, (normalizePathForComparison file.path).data =
          st ++ ('.' :: "spec".data ++ ['.']) ++ ex ∧ ex ≠ [] ∧ '.' ∉ ex) ∨
       (∃ pre, (normalizePathForComparison file.path).data = pre ++ "-test.ts".data) ∨
       (∃ pre, (normalizePathForComparison file.path).data = pre ++ "-spec.ts".data)) := by
  unfold isTestFileChange
  simp only [Bool.or_eq_true]
  rw [strContains_iff, strContains_iff, strContains_iff,
    matchesDotSuffix_iff, matchesDotSuffix_iff,
    strEndsWith_iff, strEndsWith_iff]
  simp only [or_assoc]

/-! ## Lemmas: the status reader -/

/-- `parseBranchHeader` touches only the branch-tracking fields. -/
theorem parseBranchHeader_preserves (header : String) (st : RepoStatus) :
    ((parseBranchHeader header st).staged = st.staged ∧
      (parseBranchHeader header st).unstaged = st.unstaged) ∧
    (parseBranchHeader header st).conflicts = st.conflicts ∧
    (parseBranchHeader header st).untracked = st.untracked := by
  have key : ∀ (tokens : List String) (s0 : RepoStatus),
      ((tokens.foldl
          (fun st token =>
            let st := if strStartsWith token "ahead " then
                { st with ahead := some (jsParseIntNum (strDrop token 6)) }
              else st
            if strStartsWith token "behind " then
              { st with behind := some (jsParseIntNum (strDrop token 7)) }
            else st)
          s0).staged = s0.staged ∧
        (tokens.foldl
          (fun st token =>
            let st := if strStartsWith token "ahead " then
                { st with ahead := some (jsParseIntNum (strDrop token 6)) }
              else st
            if strStartsWith token "behind " then
              { st with behind := some (jsParseIntNum (strDrop token 7)) }
            else st)
          s0).unstaged = s0.unstaged) ∧
        (tokens.foldl
          (fun st token =>
            let st := if strStartsWith token "ahead " then
                { st with ahead := some (jsParseIntNum (strDrop token 6)) }
              else st
            if strStartsWith token "behind " then
              { st with behind := some (jsParseIntNum (strDrop token 7)) }
            else st)
          s0).conflicts = s0.conflicts ∧
        (tokens.foldl
          (fun st token =>
            let st := if strStartsWith token "ahead " then
                { st with ahead := some (jsParseIntNum (strDrop token 6)) }
              else st
            if strStartsWith token "behind " then
              { st with behind := some (jsParseIntNum (strDrop token 7)) }
            else st)
          s0).untracked = s0.untracked := by
    intro tokens
    induction tokens with
    | nil => exact fun s0 => ⟨⟨rfl, rfl⟩, rfl, rfl⟩
    | cons tok toks ih =>
      intro s0
      simp only [List.foldl_cons]
      have hstep : ∀ (s1 : RepoStatus),
          ((let s2 := if strStartsWith tok "ahead " then
              { s1 with ahead := some (jsParseIntNum (strDrop tok 6)) }
            else s1
          if strStartsWith tok "behind " then
            { s2 with behind := some (jsParseIntNum (strDrop tok 7)) }
          else s2).staged = s1.staged ∧
          (let s2 := if strStartsWith tok "ahead " then
              { s1 with ahead := some (jsParseIntNum (strDrop tok 6)) }
            else s1
          if strStartsWith tok "behind " then
            { s2 with behind := some (jsParseIntNum (strDrop tok 7)) }
          else s2).unstaged = s1.unstaged) ∧
          (let s2 := if strStartsWith tok "ahead " then
              { s1 with ahead := some (jsParseIntNum (strDrop tok 6)) }
            else s1
          if strStartsWith tok "behind " then
            { s2 with behind := some (jsParseIntNum (strDrop tok 7)) }
          else s2).conflicts = s1.conflicts ∧
          (let s2 := if strStartsWith tok "ahead " then
              { s1 with ahead := some (jsParseIntNum (strDrop tok 6)) }
            else s1
          if strStartsWith tok "behind " then
            { s2 with behind := some (jsParseIntNum (strDrop tok 7)) }
          else s2).untracked = s1.untracked := by
        intro s1
        dsimp only
        split <;> split <;> exact ⟨⟨rfl, rfl⟩, rfl, rfl⟩
      exact ⟨⟨((ih _).1.1).trans (hstep s0).1.1, ((ih _).1.2).trans (hstep s0).1.2⟩,
        ((ih _).2.1).trans (hstep s0).2.1, ((ih _).2.2).trans (hstep s0).2.2⟩
  unfold parseBranchHeader
  dsimp only
  repeat' split
  all_goals
    first
    | exact ⟨⟨rfl, rfl⟩, rfl, rfl⟩
    | exact ⟨⟨(key _ _).1.1, (key _ _).1.2⟩, (key _ _).2.1, (key _ _).2.2⟩

/-- One loop iteration appends exactly the line's contributions to the
conflict, staged and unstaged lists. -/
theorem processLine_fields (st : RepoStatus) (l : String) :
    (processLine st l).conflicts = st.conflicts ++ lineConflicts l ∧
    (processLine st l).staged = st.staged ++ lineStaged l ∧
    (processLine st l).unstaged = st.unstaged ++ lineUnstaged l := by
  by_cases h1 : strStartsWith l "## " = true
  · have hE : isEntryLine l = false := by simp [isEntryLine, h1]
    unfold processLine
    rw [if_pos h1]
    refine ⟨?_, ?_, ?_⟩
    · rw [(parseBranchHeader_preserves _ _).2.1]
      simp [lineConflicts, hE]
    · rw [(parseBranchHeader_preserves _ _).1.1]
      simp [lineStaged, hE]
    · rw [(parseBranchHeader_preserves _ _).1.2]
      simp [lineUnstaged, hE]
  · by_cases h2 : strStartsWith l "??" = true
    · have hE : isEntryLine l = false := by simp [isEntryLine, h2]
      unfold processLine
      rw [if_neg h1, if_pos h2]
      exact ⟨by simp [lineConflicts, hE], by simp [lineStaged, hE],
        by simp [lineUnstaged, hE]⟩
    · have hE : isEntryLine l = true := by simp [isEntryLine, h1, h2]
      unfold processLine
      rw [if_neg h1, if_neg h2]
      dsimp only
      by_cases hU : (strTake l 2).data[0]? = some 'U' ∨ (strTake l 2).data[1]? = some 'U'
      · rw [if_pos hU]
        have hEU : entryUnmerged l = true := by
          rcases hU with h | h <;> simp [entryUnmerged, h]
        exact ⟨by simp [lineConflicts, hE, hEU, entryPath],
          by simp [lineStaged, hE, hEU], by simp [lineUnstaged, hE, hEU]⟩
      · rw [if_neg hU]
        have hU' := not_or.mp hU
        have hEU : entryUnmerged l = false := by
          simp [entryUnmerged, hU'.1, hU'.2]
        by_cases hS : (strTake l 2).data[0]? ≠ some ' ' ∧ (strTake l 2).data[0]? ≠ some '?'
        · rw [if_pos hS]
          by_cases hW : (strTake l 2).data[1]? ≠ some ' '
          · rw [if_pos hW]
            exact ⟨by simp [lineConflicts, hE, hEU],
              by simp [lineStaged, hE, hEU, hS.1, hS.2, entryPath],
              by simp [lineUnstaged, hE, hEU, hW, entryPath]⟩
          · rw [if_neg hW]
            have hW' : (strTake l 2).data[1]? = some ' ' := not_not.mp hW
            exact ⟨by simp [lineConflicts, hE, hEU],
              by simp [lineStaged, hE, hEU, hS.1, hS.2, entryPath],
              by simp [lineUnstaged, hW']⟩
        · rw [if_neg hS]
          have hS' : (strTake l 2).data[0]? = some ' ' ∨ (strTake l 2).data[0]? = some '?' := by
            rcases not_and_or.mp hS with h | h
            · exact Or.inl (not_not.mp h)
            · exact Or.inr (not_not.mp h)
          by_cases hW : (strTake l 2).data[1]? ≠ some ' '
          · rw [if_pos hW]
            refine ⟨by simp [lineConflicts, hE, hEU], ?_,
              by simp [lineUnstaged, hE, hEU, hW, entryPath]⟩
            rcases hS' with h | h <;> simp [lineStaged, h]
          · rw [if_neg hW]
            have hW' : (strTake l 2).data[1]? = some ' ' := not_not.mp hW
            refine ⟨by simp [lineConflicts, hE, hEU], ?_, by simp [lineUnstaged, hW']⟩
            rcases hS' with h | h <;> simp [lineStaged, h]

/-- The whole status loop appends the per-line contributions in order. -/
theorem statusFold_fields (lines : List String) (st : RepoStatus) :
    ((lines.foldl processLine st).conflicts = st.conflicts ++ conflictsOf lines) ∧
    ((lines.foldl processLine st).staged = st.staged ++ stagedOf lines) ∧
    ((lines.foldl processLine st).unstaged = st.unstaged ++ unstagedOf lines) := by
  induction lines generalizing st with
  | nil => simp [conflictsOf, stagedOf, unstagedOf]
  | cons l ls ih =>
    rw [List.foldl_cons]
    rcases ih (processLine st l) with ⟨i1, i2, i3⟩
    rcases processLine_fields st l with ⟨p1, p2, p3⟩
    refine ⟨?_, ?_, ?_⟩
    · rw [i1, p1, conflictsOf, List.append_assoc]
    · rw [i2, p2, stagedOf, List.append_assoc]
    · rw [i3, p3, unstagedOf, List.append_assoc]

theorem conflictsOf_mem {lines : List String} {c : ConflictEntry} :
    c ∈ conflictsOf lines ↔
      ∃ l ∈ lines, (isEntryLine l && entryUnmerged l) = true ∧
        c = ⟨entryPath l, strTake l 2⟩ := by
  induction lines with
  | nil => simp [conflictsOf]
  | cons l ls ih =>
    rw [conflictsOf, List.mem_append, ih]
    unfold lineConflicts
    constructor
    · rintro (hc | ⟨l', hl', hcond, rfl⟩)
      · split at hc
        · next hcond =>
          rcases List.mem_singleton.mp hc with rfl
          exact ⟨l, List.mem_cons_self .., hcond, rfl⟩
        · cases hc
      · exact ⟨l', List.mem_cons_of_mem _ hl', hcond, rfl⟩
    · rintro ⟨l', hl', hcond, rfl⟩
      rcases List.mem_cons.mp hl' with rfl | hl'
      · left
        rw [if_pos hcond]
        exact List.mem_singleton.mpr rfl
      · right
        exact ⟨l', hl', hcond, rfl⟩

theorem stagedOf_mem {lines : List String} {e : StatusEntry} (he : e ∈ stagedOf lines) :
    ∃ l ∈ lines, (isEntryLine l && !entryUnmerged l) = true ∧ entryPath l = e.path := by
  induction lines with
  | nil => cases he
  | cons l ls ih =>
    rw [stagedOf] at he
    rcases List.mem_append.mp he with hc | hc
    · unfold lineStaged at hc
      split at hc
      · next hcond =>
        rcases List.mem_singleton.mp hc with rfl
        refine ⟨l, List.mem_cons_self .., ?_, rfl⟩
        rcases Bool.and_eq_true_iff.mp hcond with ⟨h1, -⟩
        rcases Bool.and_eq_true_iff.mp h1 with ⟨h2, -⟩
        exact h2
      · cases hc
    · rcases ih hc with ⟨l', hl', hcond, hp⟩
      exact ⟨l', List.mem_cons_of_mem _ hl', hcond, hp⟩

theorem unstagedOf_mem {lines : List String} {e : StatusEntry} (he : e ∈ unstagedOf lines) :
    ∃ l ∈ lines, (isEntryLine l && !entryUnmerged l) = true ∧ entryPath l = e.path := by
  induction lines with
  | nil => cases he
  | cons l ls ih =>
    rw [unstagedOf] at he
    rcases List.mem_append.mp he with hc | hc
    · unfold lineUnstaged at hc
      split at hc
      · next hcond =>
        rcases List.mem_singleton.mp hc with rfl
        refine ⟨l, List.mem_cons_self .., ?_, rfl⟩
        rcases Bool.and_eq_true_iff.mp hcond with ⟨h1, -⟩
        exact h1
      · cases hc
    · rcases ih hc with ⟨l', hl', hcond, hp⟩
      exact ⟨l', List.mem_cons_of_mem _ hl', hcond, hp⟩

/-- **C7 (counterexample).** Two raw status lines naming the same path — one
unmerged, one ordinarily modified — put the path in `conflicts` *and* in
`staged`, so the claim's global exclusivity does not hold for arbitrary
status reports. -/
theorem gatherGitStatus_conflict_also_staged_cex :
    "a" ∈ (gatherGitStatus "UU a\nM  a").conflicts.map (·.path) ∧
    "a" ∈ (gatherGitStatus "UU a\nM  a").staged.map (·.path) := by
  constructor <;> decide

/-- **C7 (amended).** An entry line with the unmerged marker `U` on either
side contributes exactly one conflict entry — with the raw two-character
code as detail — and nothing to `staged`/`unstaged`; `staged`/`unstaged`
entries come only from non-unmerged entry lines; hence whenever no two
entry lines of the report carry the same path (true of every actual
`git status --short` report), no path is simultaneously in `conflicts` and
in `staged` or `unstaged`. -/
theorem gatherGitStatus_conflicts_exclusive (raw : String)
    (hnd : (((statusLines raw).filter isEntryLine).map entryPath).Nodup) :
    (∀ c, c ∈ (gatherGitStatus raw).conflicts ↔
      ∃ l ∈ statusLines raw, (isEntryLine l && entryUnmerged l) = true ∧
        c = ⟨entryPath l, strTake l 2⟩) ∧
    (∀ e ∈ (gatherGitStatus raw).staged,
      ∃ l ∈ statusLines raw, (isEntryLine l && !entryUnmerged l) = true ∧
        entryPath l = e.path) ∧
    (∀ e ∈ (gatherGitStatus raw).unstaged,
      ∃ l ∈ statusLines raw, (isEntryLine l && !entryUnmerged l) = true ∧
        entryPath l = e.path) ∧
    (∀ p, p ∈ (gatherGitStatus raw).conflicts.map (·.path) →
      p ∉ (gatherGitStatus raw).staged.map (·.path) ∧
      p ∉ (gatherGitStatus raw).unstaged.map (·.path)) := by
  have hfold := statusFold_fields (statusLines raw) {}
  have hc : (gatherGitStatus raw).conflicts = conflictsOf (statusLines raw) := by
    rw [show gatherGitStatus raw = (statusLines raw).foldl processLine {} from rfl, hfold.1]
    rfl
  have hs : (gatherGitStatus raw).staged = stagedOf (statusLines raw) := by
    rw [show gatherGitStatus raw = (statusLines raw).foldl processLine {} from rfl,
      hfold.2.1]
    rfl
  have hu : (gatherGitStatus raw).unstaged = unstagedOf (statusLines raw) := by
    rw [show gatherGitStatus raw = (statusLines raw).foldl processLine {} from rfl,
      hfold.2.2]
    rfl
  have hdisj : List.Disjoint
      ((((statusLines raw).filter isEntryLine).filter entryUnmerged).map entryPath)
      ((((statusLines raw).filter isEntryLine).filter
        (fun l => !entryUnmerged l)).map entryPath) := by
    have hperm := (List.filter_append_perm entryUnmerged
      ((statusLines raw).filter isEntryLine)).map entryPath
    have hnd2 := (hperm.nodup_iff).mpr hnd
    rw [List.map_append] at hnd2
    exact (List.nodup_append.mp hnd2).2.2
  refine ⟨fun c => by rw [hc]; exact conflictsOf_mem, fun e he => ?_, fun e he => ?_,
    fun p hp => ⟨fun hps => ?_, fun hpu => ?_⟩⟩
  · rw [hs] at he
    exact stagedOf_mem he
  · rw [hu] at he
    exact unstagedOf_mem he
  · rw [hc] at hp
    rcases List.mem_map.mp hp with ⟨cEntry, hcm, rfl⟩
    rcases conflictsOf_mem.mp hcm with ⟨l1, hl1, hcond1, rfl⟩
    rw [hs] at hps
    rcases List.mem_map.mp hps with ⟨sEntry, hsm, hpe⟩
    rcases stagedOf_mem hsm with ⟨l2, hl2, hcond2, hp2⟩
    rcases Bool.and_eq_true_iff.mp hcond1 with ⟨hE1, hU1⟩
    rcases Bool.and_eq_true_iff.mp hcond2 with ⟨hE2, hU2⟩
    refine hdisj (List.mem_map.mpr ⟨l1, ?_, rfl⟩) (List.mem_map.mpr ⟨l2, ?_, ?_⟩)
    · exact List.mem_filter.mpr ⟨List.mem_filter.mpr ⟨hl1, hE1⟩, hU1⟩
    · exact List.mem_filter.mpr ⟨List.mem_filter.mpr ⟨hl2, hE2⟩, hU2⟩
    · show entryPath l2 = (⟨entryPath l1, strTake l1 2⟩ : ConflictEntry).path
      rw [hp2, ← hpe]
  · rw [hc] at hp
    rcases List.mem_map.mp hp with ⟨cEntry, hcm, rfl⟩
    rcases conflictsOf_mem.mp hcm with ⟨l1, hl1, hcond1, rfl⟩
    rw [hu] at hpu
    rcases List.mem_map.mp hpu with ⟨sEntry, hsm, hpe⟩
    rcases unstagedOf_mem hsm with ⟨l2, hl2, hcond2, hp2⟩
    rcases Bool.and_eq_true_iff.mp hcond1 with ⟨hE1, hU1⟩
    rcases Bool.and_eq_true_iff.mp hcond2 with ⟨hE2, hU2⟩
    refine hdisj (List.mem_map.mpr ⟨l1, ?_, rfl⟩) (List.mem_map.mpr ⟨l2, ?_, ?_⟩)
    · exact List.mem_filter.mpr ⟨List.mem_filter.mpr ⟨hl1, hE1⟩, hU1⟩
    · exact List.mem_filter.mpr ⟨List.mem_filter.mpr ⟨hl2, hE2⟩, hU2⟩
    · show entryPath l2 = (⟨entryPath l1, strTake l1 2⟩ : ConflictEntry).path
      rw [hp2, ← hpe]

/-- Witness for C7 (amended) on a concrete report with one conflict line and
one staged line: the conflicted path is in neither `staged` nor `unstaged`. -/
theorem gatherGitStatus_conflicts_exclusive_witness :
    "c.txt" ∉ (gatherGitStatus "UU c.txt\nM  a.ts").staged.map (·.path) ∧
    "c.txt" ∉ (gatherGitStatus "UU c.txt\nM  a.ts").unstaged.map (·.path) := by
  exact (gatherGitStatus_conflicts_exclusive "UU c.txt\nM  a.ts" (by decide)).2.2.2
    "c.txt" (by decide)

/-! ## Lemmas: line splitting and patch truncation -/

theorem splitChL_ne_nil (sep : Char) (s : List Char) : splitChL sep s ≠ [] := by
  cases s with
  | nil => simp [splitChL]
  | cons c t =>
    unfold splitChL
    split
    · simp
    · cases h : splitChL sep t <;> simp [consHead]

theorem splitChL_no_sep (sep : Char) (s : List Char) :
    ∀ l ∈ splitChL sep s, sep ∉ l := by
  induction s with
  | nil =>
    intro l hl
    rcases List.mem_singleton.mp hl with rfl
    simp
  | cons c t ih =>
    intro l hl
    unfold splitChL at hl
    split at hl
    · rcases List.mem_cons.mp hl with rfl | hl'
      · simp
      · exact ih l hl'
    · next hc =>
      rcases hsp : splitChL sep t with _ | ⟨h, r⟩
      · exact absurd hsp (splitChL_ne_nil sep t)
      · rw [hsp] at hl
        unfold consHead at hl
        rcases List.mem_cons.mp hl with rfl | hl'
        · intro hmem
          rcases List.mem_cons.mp hmem with rfl | hmem'
          · exact hc rfl
          · exact ih h (by rw [hsp]; exact List.mem_cons_self ..) hmem'
        · exact ih l (by rw [hsp]; exact List.mem_cons_of_mem _ hl')

theorem splitChL_append_cons (sep : Char) (x r : List Char) (hx : sep ∉ x) :
    splitChL sep (x ++ sep :: r) = x :: splitChL sep r := by
  induction x with
  | nil => simp [splitChL]
  | cons c x ih =>
    have hc : ¬(c = sep) := fun h => hx (h ▸ List.mem_cons_self ..)
    have hx' : sep ∉ x := fun h => hx (List.mem_cons_of_mem _ h)
    show splitChL sep (c :: (x ++ sep :: r)) = (c :: x) :: splitChL sep r
    conv_lhs => unfold splitChL
    rw [if_neg hc, ih hx']
    rfl

theorem splitChL_no_sep_eq (sep : Char) (x : List Char) (hx : sep ∉ x) :
    splitChL sep x = [x] := by
  induction x with
  | nil => rfl
  | cons c x ih =>
    have hc : ¬(c = sep) := fun h => hx (h ▸ List.mem_cons_self ..)
    have hx' : sep ∉ x := fun h => hx (List.mem_cons_of_mem _ h)
    conv_lhs => unfold splitChL
    rw [if_neg hc, ih hx']
    rfl

theorem splitChL_join (sep : Char) (x : List Char) (A : List (List Char)) (M : List Char)
    (hx : sep ∉ x) (hA : ∀ l ∈ A, sep ∉ l) :
    splitChL sep (joinChL sep (x :: A) ++ sep :: M) = (x :: A) ++ splitChL sep M := by
  induction A generalizing x with
  | nil =>
    rw [show joinChL sep [x] = x from rfl, splitChL_append_cons sep x M hx]
    rfl
  | cons y A ih =>
    have hstep : joinChL sep (x :: y :: A) ++ sep :: M =
        x ++ sep :: (joinChL sep (y :: A) ++ sep :: M) := by
      show (x ++ sep :: joinChL sep (y :: A)) ++ sep :: M = _
      simp
    rw [hstep, splitChL_append_cons sep x _ hx,
      ih y (hA y (List.mem_cons_self ..)) (fun l hl => hA l (List.mem_cons_of_mem _ hl))]
    rfl

theorem truncateSeg_le {s : String} {m : Nat} (h : ¬((jsSplitNl s).length > m)) :
    truncateSeg s m = s := by
  unfold truncateSeg
  simp [h]

theorem truncateSeg_gt {s : String} {m : Nat} (hm : 0 < m)
    (h : (jsSplitNl s).length > m) :
    jsSplitNl (truncateSeg s m) = (jsSplitNl s).take m ++ ["… (truncated)"] := by
  have htr : truncateSeg s m = jsJoinNl ((jsSplitNl s).take m) ++ "\n… (truncated)" := by
    unfold truncateSeg
    simp [h]
  rw [htr]
  have hdata : (jsJoinNl ((jsSplitNl s).take m) ++ "\n… (truncated)").data =
      joinChL '\n' (((jsSplitNl s).take m).map String.data) ++
        '\n' :: "… (truncated)".data := rfl
  show (splitChL '\n' _).map String.mk = _
  rw [hdata]
  have htakemap : ((jsSplitNl s).take m).map String.data =
      (splitChL '\n' s.data).take m := by
    show ((((splitChL '\n' s.data).map String.mk).take m).map String.data) = _
    rw [← List.map_take, List.map_map]
    have hid : ∀ l ∈ (splitChL '\n' s.data).take m,
        (String.data ∘ String.mk) l = id l := fun l _ => rfl
    rw [List.map_congr_left hid, List.map_id]
  have hlen : 0 < (splitChL '\n' s.data).length := by
    rcases hsp : splitChL '\n' s.data with _ | ⟨a, b⟩
    · exact absurd hsp (splitChL_ne_nil _ _)
    · simp
  rcases htk : (splitChL '\n' s.data).take m with _ | ⟨x, A⟩
  · rcases List.take_eq_nil_iff.mp htk with hz | hnil
    · omega
    · exact absurd hnil (splitChL_ne_nil _ _)
  · rw [htakemap, htk]
    have hnosep : ∀ l ∈ x :: A, '\n' ∉ l := by
      intro l hl
      exact splitChL_no_sep '\n' s.data l (List.mem_of_mem_take (htk ▸ hl))
    rw [splitChL_join '\n' x A "… (truncated)".data
      (hnosep x (List.mem_cons_self ..)) (fun l hl => hnosep l (List.mem_cons_of_mem _ hl))]
    rw [splitChL_no_sep_eq '\n' "… (truncated)".data (by decide)]
    show ((x :: A) ++ ["… (truncated)".data]).map String.mk =
      ((splitChL '\n' s.data).map String.mk).take m ++ ["… (truncated)"]
    rw [List.map_append, ← List.map_take, htk]
    rfl

theorem updateFirstPatch_mem {pred : DiffFileChange → Bool} {np : String}
    {l : List DiffFileChange} {f : DiffFileChange} (hf : f ∈ updateFirstPatch pred np l) :
    f ∈ l ∨ ∃ g ∈ l, f = { g with patch := some np } := by
  induction l with
  | nil => cases hf
  | cons g gs ih =>
    unfold updateFirstPatch at hf
    split at hf
    · rcases List.mem_cons.mp hf with rfl | hf'
      · exact Or.inr ⟨g, List.mem_cons_self .., rfl⟩
      · exact Or.inl (List.mem_cons_of_mem _ hf')
    · rcases List.mem_cons.mp hf with rfl | hf'
      · exact Or.inl (List.mem_cons_self ..)
      · rcases ih hf' with h | ⟨g', hg', rfl⟩
        · exact Or.inl (List.mem_cons_of_mem _ h)
        · exact Or.inr ⟨g', List.mem_cons_of_mem _ hg', rfl⟩

/-- Every patch attached by `attachPatchSnippets` is the truncation of some
segment of the split unified diff (given that no input record already
carries a patch). -/
theorem attachPatchSnippets_patch_source {files : List DiffFileChange} {raw : String}
    {maxLines : Nat} (hbase : ∀ f ∈ files, f.patch = none) :
    ∀ f ∈ attachPatchSnippets files raw maxLines, ∀ p, f.patch = some p →
      ∃ seg ∈ splitUnifiedDiff raw, p = truncateSeg seg.patch maxLines := by
  have key : ∀ (segs : List PatchSegment) (fs : List DiffFileChange),
      (∀ f ∈ fs, ∀ p, f.patch = some p →
        ∃ seg ∈ splitUnifiedDiff raw, p = truncateSeg seg.patch maxLines) →
      (∀ seg ∈ segs, seg ∈ splitUnifiedDiff raw) →
      ∀ f ∈ segs.foldl
        (fun fs seg =>
          updateFirstPatch (segMatchesFile (normalizePathForComparison seg.keyPath))
            (truncateSeg seg.patch maxLines) fs)
        fs, ∀ p, f.patch = some p →
        ∃ seg ∈ splitUnifiedDiff raw, p = truncateSeg seg.patch maxLines := by
    intro segs
    induction segs with
    | nil => exact fun fs hinv _ => hinv
    | cons seg segs ih =>
      intro fs hinv hsegs
      rw [List.foldl_cons]
      refine ih _ ?_ (fun sg hsg => hsegs sg (List.mem_cons_of_mem _ hsg))
      intro f hf p hp
      rcases updateFirstPatch_mem hf with h | ⟨g, hg, rfl⟩
      · exact hinv f h p hp
      · refine ⟨seg, hsegs seg (List.mem_cons_self ..), ?_⟩
        have : ({ g with patch := some (truncateSeg seg.patch maxLines) } :
            DiffFileChange).patch = some (truncateSeg seg.patch maxLines) := rfl
        rw [this] at hp
        exact (Option.some.inj hp).symm
  intro f hf p hp
  unfold attachPatchSnippets at hf
  split at hf
  · rw [hbase f hf] at hp
    cases hp
  · refine key (splitUnifiedDiff raw) files ?_ (fun sg hsg => hsg) f hf p hp
    intro g hg q hq
    rw [hbase g hg] at hq
    cases hq

/-- Every record of `mergeDiffData` starts with no patch attached. -/
theorem mergeDiffData_patch_none {ctm : List (String × ChangeInfo)}
    {ns : List NumstatEntry} {args : DiffInsightsArgs} {f : DiffFileChange}
    (hf : f ∈ mergeDiffData ctm ns args) : f.patch = none := by
  have hbase := mergeDiffData_mem_base hf
  rcases List.mem_map.mp hbase with ⟨p, hp, rfl⟩
  rcases mergeFold2_mem _ hp with h1 | ⟨kv, _, rfl⟩
  · rcases mergeFold1_mem _ _ h1 with h2 | ⟨e, _, rfl⟩
    · cases h2
    · rfl
  · rfl

/-- **C3.** Every patch attached to a merged record is the truncation of one
segment of the split unified diff: if the segment spans more than
`maxPatchLines` lines, the attached patch is exactly the segment's first
`maxPatchLines` lines plus exactly one truncation-marker line; otherwise it
is the segment's text verbatim (header line included).  The hypothesis
`0 < maxLines` reflects the schema bound `maxPatchLines ≥ 10`. -/
theorem attachPatchSnippets_truncation
    (nameStatusRaw numstatRaw rawPatch : String) (args : DiffInsightsArgs)
    (maxLines : Nat) (hm : 0 < maxLines) (f : DiffFileChange)
    (hf : f ∈ attachPatchSnippets
      (mergeDiffData (parseNameStatus nameStatusRaw) (parseNumstat numstatRaw) args)
      rawPatch maxLines)
    (p : String) (hp : f.patch = some p) :
    ∃ seg ∈ splitUnifiedDiff rawPatch,
      if (jsSplitNl seg.patch).length > maxLines then
        jsSplitNl p = (jsSplitNl seg.patch).take maxLines ++ ["… (truncated)"] ∧
          (jsSplitNl p).length = maxLines + 1
      else p = seg.patch := by
  rcases attachPatchSnippets_patch_source
    (fun g hg => mergeDiffData_patch_none hg) f hf p hp with ⟨seg, hseg, rfl⟩
  refine ⟨seg, hseg, ?_⟩
  split
  · next h =>
    have hsp := truncateSeg_gt hm h
    refine ⟨hsp, ?_⟩
    rw [hsp]
    simp only [List.length_append, List.length_take, List.length_cons, List.length_nil]
    omega
  · next h =>
    exact truncateSeg_le h

/-- Witness for C3 on a one-file staged diff whose segment fits under the
line limit, so the attached patch is the segment text verbatim. -/
theorem attachPatchSnippets_truncation_witness :
    ∃ seg ∈ splitUnifiedDiff "diff --git a/a.txt b/a.txt\nindex 1..2 100644\n",
      if (jsSplitNl seg.patch).length > 10 then
        jsSplitNl "diff --git a/a.txt b/a.txt\nindex 1..2 100644" =
            (jsSplitNl seg.patch).take 10 ++ ["… (truncated)"] ∧
          (jsSplitNl "diff --git a/a.txt b/a.txt\nindex 1..2 100644").length = 10 + 1
      else "diff --git a/a.txt b/a.txt\nindex 1..2 100644" = seg.patch := by
  exact attachPatchSnippets_truncation "M\ta.txt" "1\t1\ta.txt"
    "diff --git a/a.txt b/a.txt\nindex 1..2 100644\n"
    ⟨none, .staged, none, true, 10⟩ 10 (by decide)
    ⟨"a.txt", "M", some 1, some 1, false, none,
      some "diff --git a/a.txt b/a.txt\nindex 1..2 100644"⟩
    (by decide) "diff --git a/a.txt b/a.txt\nindex 1..2 100644" rfl

/-! ## Lemmas: the tool-handler error boundary -/

/-- **C8.** Each cited tool handler returns an error-flagged response iff its
core operation raised, and in that case the response's only content text is
exactly `<tool-name> failed: <cause>` with the thrown error's message as the
cause; the handlers are total functions of the outcome, so no exception
escapes the boundary. -/
theorem handler_error_boundary (args : DiffInsightsArgs)
    (render : HeuristicReport → String)
    (o1 : Except JsThrown DiffInsights) (o2 : Except JsThrown HeuristicReport) :
    ((diffInsightsHandler args o1).isError = true ↔ ∃ e, o1 = .error e) ∧
    (∀ e, o1 = .error e →
      (diffInsightsHandler args o1).content =
        [⟨"code-review.diff-insights failed: " ++ thrownMessage e⟩]) ∧
    ((runHeuristicsHandler o2 render).isError = true ↔ ∃ e, o2 = .error e) ∧
    (∀ e, o2 = .error e →
      (runHeuristicsHandler o2 render).content =
        [⟨"code-review.run-heuristics failed: " ++ thrownMessage e⟩]) := by
  refine ⟨?_, ?_, ?_, ?_⟩
  · cases o1 with
    | ok v => simp [diffInsightsHandler]
    | error e => simp [diffInsightsHandler]
  · rintro e rfl
    rfl
  · cases o2 with
    | ok v => simp [runHeuristicsHandler]
    | error e => simp [runHeuristicsHandler]
  · rintro e rfl
    rfl

/-- Witness for C8 at a concrete raised error. -/
theorem handler_error_boundary_witness :
    (diffInsightsHandler ⟨none, .staged, none, false, 400⟩
        (.error (.errorObj "spawn git ENOENT"))).content =
      [⟨"code-review.diff-insights failed: " ++ thrownMessage (.errorObj "spawn git ENOENT")⟩] ∧
    (runHeuristicsHandler (.error (.errorObj "spawn git ENOENT")) (fun _ => "")).content =
      [⟨"code-review.run-heuristics failed: " ++ thrownMessage (.errorObj "spawn git ENOENT")⟩] := by
  have h := handler_error_boundary ⟨none, .staged, none, false, 400⟩ (fun _ => "")
    (.error (.errorObj "spawn git ENOENT")) (.error (.errorObj "spawn git ENOENT"))
  exact ⟨h.2.1 _ rfl, h.2.2.2 _ rfl⟩

end CodeReview
